import Mathlib

/-!
Verification of `src/assets/gui_server_utils.py` (tenstorrent/perf-ui GUI server).

The development shallowly embeds the Python program:

* `Json` models the values handled by Python's `json` module (integers only
  for numbers; the server's traffic is integer/string/object shaped).
* `dumps` / `loads` model `json.dumps` / `json.loads` (default separators).
* `utf8Encode` / `utf8Decode` model `str.encode('utf-8')` / `bytes.decode('utf-8')`.
* `sendResponseBytes` / `receiveCmdBytes` model `send_response` / `receive_cmd`
  (4-byte little-endian signed length framing over a TCP stream).
* `get_test_output` / `runTestCmd` model the test-session read-until-prompt
  loop and the `run_test` branch of the main command loop.
* `PerfDump.*` models the `PerfDumpData` aggregator over a pure directory tree.
-/

namespace GuiServer

/-- Model of a Python/JSON value as handled by `json.dumps` / `json.loads`.
Numbers are modelled as integers (floating point is out of scope). Objects
are insertion-ordered key/value lists, as Python dicts are. -/
inductive Json where
  | null : Json
  | bool (b : Bool) : Json
  | num (n : Int) : Json
  | str (s : String) : Json
  | arr (elems : List Json) : Json
  | obj (members : List (String × Json)) : Json
  deriving Inhabited

/-- Python truthiness of a JSON value (`if data:` in the source): `None`,
`False`, `0`, `""`, `[]` and `{}` are falsy, everything else truthy. -/
def Json.truthy : Json → Bool
  | .null => false
  | .bool b => b
  | .num n => n != 0
  | .str s => !s.isEmpty
  | .arr elems => !elems.isEmpty
  | .obj members => !members.isEmpty

mutual

/-- Size measure of a JSON value, used for parser fuel. -/
def Json.size : Json → Nat
  | .null => 1
  | .bool _ => 1
  | .num _ => 1
  | .str _ => 1
  | .arr elems => 2 + Json.sizeList elems
  | .obj members => 2 + Json.sizeMembers members

/-- Size measure of a list of JSON values. -/
def Json.sizeList : List Json → Nat
  | [] => 0
  | v :: vs => Json.size v + Json.sizeList vs

/-- Size measure of a list of JSON object members. -/
def Json.sizeMembers : List (String × Json) → Nat
  | [] => 0
  | (_, v) :: vs => Json.size v + Json.sizeMembers vs

end

/-- The decimal digit character for `d` (`d < 10`; other inputs map to `'9'`). -/
def digitChar : Nat → Char
  | 0 => '0'
  | 1 => '1'
  | 2 => '2'
  | 3 => '3'
  | 4 => '4'
  | 5 => '5'
  | 6 => '6'
  | 7 => '7'
  | 8 => '8'
  | _ => '9'

/-- Is `c` an ASCII decimal digit? -/
def isDigitChar (c : Char) : Bool := 48 ≤ c.toNat && c.toNat ≤ 57

/-- Numeric value of a digit character. -/
def digitVal (c : Char) : Nat := c.toNat - 48

/-- Little-endian decimal digits of `n` (empty for `0`). -/
def natDigitsRev : Nat → List Char
  | 0 => []
  | n + 1 => digitChar ((n + 1) % 10) :: natDigitsRev ((n + 1) / 10)
decreasing_by exact Nat.div_lt_self (Nat.succ_pos n) (by omega)

/-- Decimal representation of a natural number, as Python's `str`/`json.dumps`
prints it. -/
def natChars (n : Nat) : List Char :=
  if n = 0 then ['0'] else (natDigitsRev n).reverse

/-- Decimal representation of an integer. -/
def intChars (n : Int) : List Char :=
  if n < 0 then '-' :: natChars n.natAbs else natChars n.toNat

/-- JSON string escaping of one character, as `json.dumps` escapes it (at the
level of parsed values only the quote and backslash escapes matter). -/
def escapeChar (c : Char) : List Char :=
  if c = '"' then ['\\', '"'] else if c = '\\' then ['\\', '\\'] else [c]

/-- JSON string escaping of a character sequence. -/
def escapeChars (cs : List Char) : List Char := (cs.map escapeChar).flatten

mutual

/-- Model of Python `json.dumps` (default separators `", "` and `": "`),
producing the serialized character sequence. -/
def json_dumps : Json → List Char
  | .null => 'n' :: ['u', 'l', 'l']
  | .bool true => 't' :: ['r', 'u', 'e']
  | .bool false => 'f' :: ['a', 'l', 's', 'e']
  | .num n => intChars n
  | .str s => '"' :: (escapeChars s.toList ++ ['"'])
  | .arr elems => '[' :: (dumpsElems elems ++ [']'])
  | .obj members => '\x7b' :: (dumpsMembers members ++ ['\x7d'])
termination_by structural v => v

/-- Serialize array elements, separated by `", "`. -/
def dumpsElems : List Json → List Char
  | [] => []
  | [v] => json_dumps v
  | v :: vs => json_dumps v ++ ',' :: ' ' :: dumpsElems vs
termination_by structural vs => vs

/-- Serialize object members, `"key": value` separated by `", "`. -/
def dumpsMembers : List (String × Json) → List Char
  | [] => []
  | [(k, v)] => '"' :: (escapeChars k.toList ++ '"' :: ':' :: ' ' :: json_dumps v)
  | (k, v) :: ms =>
      ('"' :: (escapeChars k.toList ++ '"' :: ':' :: ' ' :: json_dumps v)) ++
        ',' :: ' ' :: dumpsMembers ms
termination_by structural ms => ms

end

/-- Is `c` JSON whitespace (the characters `json.loads` skips)? -/
def isJsonWs (c : Char) : Bool := c = ' ' || c = '\t' || c = '\n' || c = '\r'

/-- Skip leading JSON whitespace. -/
def skipWs : List Char → List Char
  | [] => []
  | c :: rest => if isJsonWs c then skipWs rest else c :: rest

/-- Parse the body of a JSON string (after the opening quote), returning the
unescaped characters and the input after the closing quote. -/
def parseStrAux : List Char → Option (List Char × List Char)
  | [] => none
  | c :: rest =>
    if c = '"' then some ([], rest)
    else if c = '\\' then
      match rest with
      | [] => none
      | c2 :: rest2 =>
        if c2 = '"' || c2 = '\\' then
          (parseStrAux rest2).map fun p => (c2 :: p.1, p.2)
        else none
    else (parseStrAux rest).map fun p => (c :: p.1, p.2)
termination_by structural s => s

/-- Split a maximal run of leading decimal digits from the input. -/
def takeDigits : List Char → List Char × List Char
  | [] => ([], [])
  | c :: rest =>
    if isDigitChar c then
      let p := takeDigits rest
      (c :: p.1, p.2)
    else ([], c :: rest)

/-- Numeric value of a big-endian digit sequence. -/
def digitsVal (ds : List Char) : Nat := ds.foldl (fun a c => a * 10 + digitVal c) 0

mutual

/-- Recursive-descent JSON value parser (fuelled), modelling `json.loads`'s
grammar on the values `json.dumps` can produce. Returns the value and the
unconsumed input. -/
def parseValue : Nat → List Char → Option (Json × List Char)
  | 0, _ => none
  | fuel + 1, s =>
    match skipWs s with
    | [] => none
    | c :: rest =>
      if c = 'n' then
        match rest with
        | 'u' :: 'l' :: 'l' :: r => some (.null, r)
        | _ => none
      else if c = 't' then
        match rest with
        | 'r' :: 'u' :: 'e' :: r => some (.bool true, r)
        | _ => none
      else if c = 'f' then
        match rest with
        | 'a' :: 'l' :: 's' :: 'e' :: r => some (.bool false, r)
        | _ => none
      else if c = '"' then
        (parseStrAux rest).map fun p => (.str (String.mk p.1), p.2)
      else if c = '[' then
        match skipWs rest with
        | [] => none
        | c2 :: r2 =>
          if c2 = ']' then some (.arr [], r2)
          else (parseElems fuel (c2 :: r2)).map fun p => (.arr p.1, p.2)
      else if c = '\x7b' then
        match skipWs rest with
        | [] => none
        | c2 :: r2 =>
          if c2 = '\x7d' then some (.obj [], r2)
          else (parseMembers fuel (c2 :: r2)).map fun p => (.obj p.1, p.2)
      else if c = '-' then
        match takeDigits rest with
        | ([], _) => none
        | (ds, r) => some (.num (-(digitsVal ds : Int)), r)
      else if isDigitChar c then
        match takeDigits (c :: rest) with
        | (ds, r) => some (.num (digitsVal ds : Int), r)
      else none
termination_by structural fuel _ => fuel

/-- Parse a nonempty comma-separated element list followed by `]`. -/
def parseElems : Nat → List Char → Option (List Json × List Char)
  | 0, _ => none
  | fuel + 1, s =>
    match parseValue fuel s with
    | none => none
    | some (v, r) =>
      match skipWs r with
      | ',' :: r2 => (parseElems fuel (skipWs r2)).map fun p => (v :: p.1, p.2)
      | ']' :: r2 => some ([v], r2)
      | _ => none
termination_by structural fuel _ => fuel

/-- Parse a nonempty comma-separated member list followed by `}`. -/
def parseMembers : Nat → List Char → Option (List (String × Json) × List Char)
  | 0, _ => none
  | fuel + 1, s =>
    match s with
    | '"' :: rest =>
      match parseStrAux rest with
      | none => none
      | some (k, r) =>
        match skipWs r with
        | ':' :: r2 =>
          match parseValue fuel r2 with
          | none => none
          | some (v, r3) =>
            match skipWs r3 with
            | ',' :: r4 =>
              (parseMembers fuel (skipWs r4)).map fun p =>
                ((String.mk k, v) :: p.1, p.2)
            | '\x7d' :: r4 => some ([(String.mk k, v)], r4)
            | _ => none
        | _ => none
    | _ => none
termination_by structural fuel _ => fuel

end

/-- Model of Python `json.loads`: parse one JSON value and require only
whitespace after it. -/
def json_loads (s : List Char) : Option Json :=
  match parseValue (s.length + 1) s with
  | some (v, rest) => if (skipWs rest).isEmpty then some v else none
  | none => none

/-- Does the input not continue with a digit (so that a just-parsed number
cannot absorb following characters)? -/
def numBoundary : List Char → Bool
  | [] => true
  | c :: _ => !isDigitChar c

/-- Value of a little-endian digit list. -/
def valLE : List Char → Nat
  | [] => 0
  | c :: cs => digitVal c + 10 * valLE cs

/-! ### UTF-8 (`str.encode('utf-8')` / `bytes.decode('utf-8')`) -/
/-- UTF-8 encoding of one Unicode scalar value. -/
def utf8EncodeChar (n : Nat) : List Nat :=
  if n < 0x80 then [n]
  else if n < 0x800 then [0xC0 + n / 64, 0x80 + n % 64]
  else if n < 0x10000 then [0xE0 + n / 4096, 0x80 + n / 64 % 64, 0x80 + n % 64]
  else [0xF0 + n / 262144, 0x80 + n / 4096 % 64, 0x80 + n / 64 % 64, 0x80 + n % 64]

/-- Model of `str.encode('utf-8')`, producing bytes (as naturals below 256). -/
def utf8Encode (cs : List Char) : List Nat :=
  (cs.map fun c => utf8EncodeChar c.toNat).flatten

/-- Is `b` a UTF-8 continuation byte? -/
def utf8Cont (b : Nat) : Bool := 0x80 ≤ b && b < 0xC0

mutual

/-- Model of `bytes.decode('utf-8')`: strict decoding, rejecting stray
continuation bytes, overlong forms, surrogates and out-of-range values. -/
def utf8Decode : List Nat → Option (List Char)
  | [] => some []
  | b :: rest =>
    if b < 0x80 then (utf8Decode rest).map (Char.ofNat b :: ·)
    else if b < 0xC0 then none
    else if b < 0xE0 then utf8DecodeTwo b rest
    else if b < 0xF0 then utf8DecodeThreeA b rest
    else if b < 0xF8 then utf8DecodeFourA b rest
    else none

/-- Decode the continuation byte of a 2-byte sequence headed by `b`. -/
def utf8DecodeTwo (b : Nat) : List Nat → Option (List Char)
  | [] => none
  | b2 :: rest2 =>
    if utf8Cont b2 then
      if 0x80 ≤ (b - 0xC0) * 64 + (b2 - 0x80) then
        (utf8Decode rest2).map (Char.ofNat ((b - 0xC0) * 64 + (b2 - 0x80)) :: ·)
      else none
    else none

/-- Decode the first continuation byte of a 3-byte sequence headed by `b`. -/
def utf8DecodeThreeA (b : Nat) : List Nat → Option (List Char)
  | [] => none
  | b2 :: rest2 => if utf8Cont b2 then utf8DecodeThreeB b b2 rest2 else none

/-- Decode the second continuation byte of a 3-byte sequence `b b2`. -/
def utf8DecodeThreeB (b b2 : Nat) : List Nat → Option (List Char)
  | [] => none
  | b3 :: rest3 =>
    if utf8Cont b3 then
      if 0x800 ≤ (b - 0xE0) * 4096 + (b2 - 0x80) * 64 + (b3 - 0x80) ∧
          ¬(0xD800 ≤ (b - 0xE0) * 4096 + (b2 - 0x80) * 64 + (b3 - 0x80) ∧
            (b - 0xE0) * 4096 + (b2 - 0x80) * 64 + (b3 - 0x80) < 0xE000) then
        (utf8Decode rest3).map
          (Char.ofNat ((b - 0xE0) * 4096 + (b2 - 0x80) * 64 + (b3 - 0x80)) :: ·)
      else none
    else none

/-- Decode the first continuation byte of a 4-byte sequence headed by `b`. -/
def utf8DecodeFourA (b : Nat) : List Nat → Option (List Char)
  | [] => none
  | b2 :: rest2 => if utf8Cont b2 then utf8DecodeFourB b b2 rest2 else none

/-- Decode the second continuation byte of a 4-byte sequence `b b2`. -/
def utf8DecodeFourB (b b2 : Nat) : List Nat → Option (List Char)
  | [] => none
  | b3 :: rest3 => if utf8Cont b3 then utf8DecodeFourC b b2 b3 rest3 else none

/-- Decode the third continuation byte of a 4-byte sequence `b b2 b3`. -/
def utf8DecodeFourC (b b2 b3 : Nat) : List Nat → Option (List Char)
  | [] => none
  | b4 :: rest4 =>
    if utf8Cont b4 then
      if 0x10000 ≤ (b - 0xF0) * 262144 + (b2 - 0x80) * 4096 + (b3 - 0x80) * 64 + (b4 - 0x80) ∧
          (b - 0xF0) * 262144 + (b2 - 0x80) * 4096 + (b3 - 0x80) * 64 + (b4 - 0x80) <
            0x110000 then
        (utf8Decode rest4).map
          (Char.ofNat ((b - 0xF0) * 262144 + (b2 - 0x80) * 4096 + (b3 - 0x80) * 64 +
            (b4 - 0x80)) :: ·)
      else none
    else none

end

/-! ### CommandChannel framing (`send_response` / `receive_cmd`, networked mode) -/
/-- Model of `struct.pack('<i', n)` for `0 ≤ n < 2^31`: four little-endian
bytes. -/
def packLE4 (n : Nat) : List Nat :=
  [n % 256, n / 256 % 256, n / 65536 % 256, n / 16777216 % 256]

/-- Model of `struct.unpack('<i', bs)[0]`: little-endian signed 32-bit value. -/
def unpackLE4 (bs : List Nat) : Int :=
  if bs.getD 0 0 + 256 * bs.getD 1 0 + 65536 * bs.getD 2 0 + 16777216 * bs.getD 3 0 <
      2147483648 then
    (bs.getD 0 0 + 256 * bs.getD 1 0 + 65536 * bs.getD 2 0 + 16777216 * bs.getD 3 0 : Int)
  else
    (bs.getD 0 0 + 256 * bs.getD 1 0 + 65536 * bs.getD 2 0 + 16777216 * bs.getD 3 0 : Int) -
      4294967296

/-- The receive loop of `receive_cmd`: call `connection.recv` with request size
`max 16 (expected - received)` until `received` reaches `expected`, appending
`data[:amount_received]` (which equals `data`, since `amount_received` is
updated first) to the buffer. `wire` is the pending byte stream; `sched` gives,
per `recv` call, an upper bound on how many bytes that call returns (a blocking
`recv` returns at least one byte while the stream has data; a stream that runs
dry leaves the loop spinning forever, modelled as `none`). -/
def recvLoop (wire : List Nat) (expected received : Nat) (sched : List Nat) :
    Option (List Nat) :=
  if received < expected then
    if hk : min (min (max 16 (expected - received))
        (max (sched.headD (max 16 (expected - received))) 1)) wire.length = 0 then none
    else
      match recvLoop
        (wire.drop (min (min (max 16 (expected - received))
          (max (sched.headD (max 16 (expected - received))) 1)) wire.length))
        expected
        (received + min (min (max 16 (expected - received))
          (max (sched.headD (max 16 (expected - received))) 1)) wire.length)
        sched.tail with
      | some buf =>
        some (wire.take (min (min (max 16 (expected - received))
          (max (sched.headD (max 16 (expected - received))) 1)) wire.length) ++ buf)
      | none => none
  else some []
termination_by expected - received
decreasing_by omega

/-- Model of `receive_cmd` over the networked channel: read 4 bytes, unpack
them as a little-endian signed length, loop on partial reads until that many
bytes arrived, decode UTF-8 and parse JSON. Any failure on the way (short
prefix, undecodable bytes, unparsable JSON) raises in Python and is modelled as
`none`. -/
def receive_cmd (wire : List Nat) (sched : List Nat) : Option Json :=
  if wire.length < 4 then none
  else
    match (if unpackLE4 (wire.take 4) ≤ 0 then some []
      else recvLoop (wire.drop 4) (unpackLE4 (wire.take 4)).toNat 0 sched) with
    | none => none
    | some buf =>
      match utf8Decode buf with
      | none => none
      | some cs => json_loads cs

/-- First-occurrence key lookup in a Python dict modelled as an ordered
key/value list (`"error" in data` / `data["error"]`). -/
def lookupKey {α : Type} : List (String × α) → String → Option α
  | [], _ => none
  | (k', v) :: rest, k => if k' = k then some v else lookupKey rest k

/-- Key assignment in a Python dict modelled as an ordered key/value list
(`data["error"] = ...`): replace in place when the key exists, append
otherwise. -/
def setKey {α : Type} : List (String × α) → String → α → List (String × α)
  | [], k, v => [(k, v)]
  | (k', v') :: rest, k, v =>
    if k' = k then (k, v) :: rest else (k', v') :: setKey rest k v

/-- Is this looked-up value absent or `None` (`("error" not in data) or
(data["error"] is None)`)? -/
def isNoneOrNull : Option Json → Bool
  | none => true
  | some .null => true
  | some _ => false

/-- The error normalization performed by `send_response`: if the mapping lacks
an `error` key or its `error` is `None`, set `error` to the empty string. -/
def normalizeError (d : List (String × Json)) : List (String × Json) :=
  if isNoneOrNull (lookupKey d "error") then setKey d "error" (.str "") else d

/-- Model of `send_response` over the networked channel: normalize the error
field, serialize to JSON, UTF-8 encode, and send a 4-byte little-endian length
prefix followed by the payload. `struct.pack('<i', ·)` raises when the length
exceeds the signed 32-bit range, modelled as `none`. -/
def send_response (d : List (String × Json)) : Option (List Nat) :=
  if (utf8Encode (json_dumps (.obj (normalizeError d)))).length < 2147483648 then
    some (packLE4 (utf8Encode (json_dumps (.obj (normalizeError d)))).length ++
      utf8Encode (json_dumps (.obj (normalizeError d))))
  else none

/-! ### TestSession (`get_test_output` and the `run_test` command branch) -/
/-- One event on the test child's stdout as consumed by `get_test_output`'s
`for line in process.stdout` loop: a decoded line, or a read failure (an
exception whose text becomes the recorded error). -/
inductive StdoutItem where
  | line (s : String) : StdoutItem
  | fail (msg : String) : StdoutItem
  deriving Repr, DecidableEq

/-- The fixed prompt marker (`TEST_PROMPT = "  CMD>"`). -/
def TEST_PROMPT : String := "  CMD>"

/-- Is `c` Python `str` whitespace (the ASCII part, as stripped by
`str.rstrip()`)? -/
def pyIsSpace (c : Char) : Bool :=
  c = ' ' || c = '\t' || c = '\n' || c = '\r' || c = '\x0b' || c = '\x0c'

/-- Model of Python `str.rstrip()`. -/
def pyRstrip (s : String) : String :=
  String.mk (s.toList.reverse.dropWhile pyIsSpace).reverse

/-- The `for line in process.stdout` loop of `get_test_output`. Returns the
captured (rstripped, non-prompt) lines, the recorded error, whether the loop
stopped at the prompt marker, the unconsumed stream, and the final value of
`process_alive`. The `process.poll() is not None and line == b''` branch of
the source cannot fire (line iteration ends at EOF instead of yielding empty
bytes), so `process_alive` is still `True` when the loop ends. -/
def gtoLoop : List StdoutItem → List String × Option String × Bool × List StdoutItem × Bool
  | [] => ([], none, false, [], true)
  | .line l :: rest =>
    if pyRstrip l = TEST_PROMPT then ([], none, true, rest, true)
    else
      match gtoLoop rest with
      | (out, err, prompt, rem, alive) => (pyRstrip l :: out, err, prompt, rem, alive)
  | .fail msg :: rest => ([], some msg, false, rest, true)

/-- The value returned by `get_test_output`: recorded error, captured output,
the returned `prompt` flag (which is `process_alive` in the source), the
unconsumed stream, and whether `process.kill()` was called. -/
structure GtoResult where
  error : Option String
  output : List String
  prompt : Bool
  rest : List StdoutItem
  killed : Bool
  deriving Repr, DecidableEq

/-- Model of `get_test_output`: run the read loop, then — if no prompt was
seen — kill the process and clear `process_alive`; the response's `prompt`
field carries `process_alive`. -/
def get_test_output (items : List StdoutItem) : GtoResult :=
  match gtoLoop items with
  | (out, err, prompt, rem, alive) =>
    { error := err
      output := out
      prompt := if prompt then alive else false
      rest := rem
      killed := !prompt }

/-- Python `None`-or-string to JSON (`Option.none` ↦ `null`). -/
def jsonOfOptStr : Option String → Json
  | none => .null
  | some s => .str s

/-- A list of output lines as a JSON array of strings. -/
def jsonOfLines (ls : List String) : Json := .arr (ls.map .str)

/-- Model of the `run_test` branch of the main command loop, driving the
spawned child's stdout stream through the three scripted steps (initial
prompt, `list_ops()`, `exit()`). Returns the Response mapping as normalized
and sent by `send_response`. The step-2 failure checks reference `test`
(step 1's result) exactly as the source does. -/
def runTestCmd (stream : List StdoutItem) : List (String × Json) :=
  let test := get_test_output stream
  if test.error ≠ none then
    normalizeError [("error", jsonOfOptStr test.error),
      ("output", jsonOfLines test.output)]
  else if !test.prompt then
    normalizeError [("error", .str "Test completed without a prompt."),
      ("output", jsonOfLines test.output)]
  else
    let out := get_test_output test.rest
    if out.error ≠ none then
      normalizeError [("error", jsonOfOptStr test.error),
        ("output", jsonOfLines (test.output ++ out.output))]
    else if !test.prompt then
      normalizeError [("error", .str "Test stopped after first command."),
        ("output", jsonOfLines (test.output ++ out.output))]
    else
      let out3 := get_test_output out.rest
      normalizeError [("error", jsonOfOptStr out3.error),
        ("output", jsonOfLines (test.output ++ out.output ++ out3.output)),
        ("data", jsonOfLines out.output)]

/-! ### PerfDumpAggregator: filesystem model and filename patterns -/
/-- A pure model of a directory entry: a file with its raw text content, or a
subdirectory with its own entries (in `os.listdir` order). -/
inductive Entry where
  | file (name : String) (content : String) : Entry
  | dir (name : String) (entries : List Entry) : Entry
  deriving Repr

/-- The name of an entry. -/
def entryName : Entry → String
  | .file n _ => n
  | .dir n _ => n

/-- Model of `get_subfolders`: the subdirectories of a directory, in listing
order. -/
def get_subfolders (es : List Entry) : List (String × List Entry) :=
  es.filterMap fun e =>
    match e with
    | .dir n sub => some (n, sub)
    | .file _ _ => none

/-- Does the directory have at least one subdirectory (`if not sub_folders`)? -/
def hasSubdir (es : List Entry) : Bool :=
  es.any fun e =>
    match e with
    | .dir _ _ => true
    | .file _ _ => false

/-- Strip a literal character sequence from the front of the input. -/
def stripLit : List Char → List Char → Option (List Char)
  | [], s => some s
  | _ :: _, [] => none
  | a :: as, b :: bs => if a = b then stripLit as bs else none

/-- Regex `.`: any character except a newline. -/
def dotAny (c : Char) : Bool := c ≠ '\n'

/-- Regex `$`: at the very end, or before a single final newline. -/
def tailJson (rest : List Char) : Bool :=
  rest == ['j', 's', 'o', 'n'] || rest == ['j', 's', 'o', 'n', '\n']

/-- Match `.json$` (any char, then the literal `json`, then end). -/
def litDotJson (t : List Char) : Bool :=
  match t with
  | [] => false
  | c :: rest => dotAny c && tailJson rest

/-- Match `(\d+).json$` and return the captured digits: the input must be a
nonempty digit run, one arbitrary non-newline character, the literal `json`,
and the end of the name (optionally before a final newline). -/
def digitsDotJson (t : List Char) : Option (List Char) :=
  if t.length ≥ 6 && t.drop (t.length - 4) == ['j', 's', 'o', 'n'] &&
      (t.take (t.length - 5)).all isDigitChar && dotAny (t.getD (t.length - 5) ' ') then
    some (t.take (t.length - 5))
  else if t.length ≥ 7 && t.drop (t.length - 5) == ['j', 's', 'o', 'n', '\n'] &&
      (t.take (t.length - 6)).all isDigitChar && dotAny (t.getD (t.length - 6) ' ') then
    some (t.take (t.length - 6))
  else none

/-- Match `r'^perf_postprocess.json$'`. -/
def is_silicon_plain (name : String) : Bool :=
  match stripLit "perf_postprocess".toList name.toList with
  | some t => litDotJson t
  | none => false

/-- Match `r'^perf_postprocess_epoch_(\d+).json$'`. -/
def is_silicon_epoch (name : String) : Bool :=
  match stripLit "perf_postprocess_epoch_".toList name.toList with
  | some t => (digitsDotJson t).isSome
  | none => false

/-- A silicon postprocess file name (plain or per-epoch). -/
def is_silicon_file (name : String) : Bool := is_silicon_plain name || is_silicon_epoch name

/-- Match `r'^runtime_table.json$'`. -/
def is_model_plain (name : String) : Bool :=
  match stripLit "runtime_table".toList name.toList with
  | some t => litDotJson t
  | none => false

/-- Match `r'^runtime_table_epoch_(\d+).json$'`. -/
def is_model_epoch (name : String) : Bool :=
  match stripLit "runtime_table_epoch_".toList name.toList with
  | some t => (digitsDotJson t).isSome
  | none => false

/-- A runtime-table (model) file name (plain or per-epoch). -/
def is_model_file (name : String) : Bool := is_model_plain name || is_model_epoch name

/-- Regex `\S`: not whitespace (ASCII approximation). -/
def pyNonSpace (c : Char) : Bool :=
  !(c = ' ' || c = '\t' || c = '\n' || c = '\r' || c = '\x0b' || c = '\x0c')

/-- Match `(\S+).dot$` after the graph literal. -/
def nonSpaceDotDot (t : List Char) : Bool :=
  (t.length ≥ 5 && t.drop (t.length - 3) == ['d', 'o', 't'] &&
    (t.take (t.length - 4)).all pyNonSpace && dotAny (t.getD (t.length - 4) ' ')) ||
  (t.length ≥ 6 && t.drop (t.length - 4) == ['d', 'o', 't', '\n'] &&
    (t.take (t.length - 5)).all pyNonSpace && dotAny (t.getD (t.length - 5) ' '))

/-- Match `r'^perf_graph_(\S+).dot$'`. -/
def is_graph_file (name : String) : Bool :=
  match stripLit "perf_graph_".toList name.toList with
  | some t => nonSpaceDotDot t
  | none => false

/-- Match `r'^(.*)proc_(\d+).json$'` with Python's greedy `(.*)` (which cannot
cross a newline): find the last position where `proc_` followed by digits,
one character and `json` reaches the end, and return the digits of group 2. -/
def hostMatchAux : List Char → Option (List Char)
  | [] => none
  | c :: cs =>
    match (if c = '\n' then none else hostMatchAux cs) with
    | some ds => some ds
    | none =>
      match stripLit ['p', 'r', 'o', 'c', '_'] (c :: cs) with
      | some t => digitsDotJson t
      | none => none

/-- The proc-id digits captured from a host file name, if it matches. -/
def procId_of (name : String) : Option String := (hostMatchAux name.toList).map String.mk

/-- Does a file name match the host proc-file pattern? -/
def is_host_file (name : String) : Bool := (hostMatchAux name.toList).isSome

/-- Model of `find_host_json_files`: host-pattern files of a directory, in
listing order, as (name, content) pairs. -/
def find_host_json_files (es : List Entry) : List (String × String) :=
  es.filterMap fun e =>
    match e with
    | .file n c => if is_host_file n then some (n, c) else none
    | .dir _ _ => none

/-- Model of `find_perf_json_files`: silicon and runtime-table files of a
directory, in listing order. -/
def find_perf_json_files (es : List Entry) : List (String × String) :=
  es.filterMap fun e =>
    match e with
    | .file n c => if is_silicon_file n || is_model_file n then some (n, c) else none
    | .dir _ _ => none

/-- Model of `find_graph_dumps`: graph-dump files of a directory, in listing
order. -/
def find_graph_dumps (es : List Entry) : List (String × String) :=
  es.filterMap fun e =>
    match e with
    | .file n c => if is_graph_file n then some (n, c) else none
    | .dir _ _ => none

/-- The silicon-pattern files of a directory (the `post_processes` list of
`get_all_folder_paths`). -/
def siliconFiles (es : List Entry) : List (String × String) :=
  es.filterMap fun e =>
    match e with
    | .file n c => if is_silicon_file n then some (n, c) else none
    | .dir _ _ => none

/-! ### PerfDumpAggregator: folder map, discovery and data merging -/
/-- The folder map: a tree of directory names (a nested dict in the source). -/
inductive FolderMap where
  | node (children : List (String × FolderMap)) : FolderMap
  deriving Repr

/-- The children of a folder-map node. -/
def FolderMap.childrenOf : FolderMap → List (String × FolderMap)
  | .node cs => cs

/-- Model of the `set_folder_map` inner loop: walk the path, creating missing
children (appended at the end, as dict insertion does). -/
def FolderMap.insertPath : FolderMap → List String → FolderMap
  | m, [] => m
  | .node cs, name :: rest =>
    .node (setKey cs name
      ((match lookupKey cs name with
        | some sub => sub
        | none => .node []).insertPath rest))
termination_by structural _ p => p

/-- Model of `set_folder_map`: insert every discovered folder path. -/
def set_folder_map (paths : List (List String)) : FolderMap :=
  paths.foldl (fun m p => m.insertPath p) (.node [])

/-- Is a `/`-separated path reachable from the root of the folder map? -/
def FolderMap.reach : FolderMap → List String → Bool
  | _, [] => true
  | .node cs, name :: rest =>
    match lookupKey cs name with
    | some sub => sub.reach rest
    | none => false
termination_by structural _ p => p

/-- The leaf check of `get_all_folder_paths` for a directory with no
subdirectories: exactly one silicon postprocess file, whose parsed content
must be truthy; a parse failure aborts the whole aggregation (`none`). The
result is the list of relative paths this directory contributes. -/
def siliconLeafPaths (es : List Entry) : Option (List (List String)) :=
  match siliconFiles es with
  | [f] =>
    match json_loads f.2.toList with
    | some d => if d.truthy then some [[]] else some []
    | none => none
  | _ => some []

/-- The recursion of `extract_all_folder_paths` over a directory's entries:
a subdirectory named `host` contributes `[]` (relative) when it holds host
files and is not descended into; a childless subdirectory contributes via the
silicon leaf check; any other subdirectory is recursed into. Every contributed
relative path is prefixed with the subdirectory's name. -/
def extractChildren : List Entry → Option (List (List String))
  | [] => some []
  | .file _ _ :: rest => extractChildren rest
  | .dir n es :: rest =>
    (if n = "host" then
      (if (find_host_json_files es).isEmpty then some [] else some [[]])
     else if hasSubdir es then extractChildren es
     else siliconLeafPaths es).bind fun ps =>
      (extractChildren rest).map fun qs => ps.map (n :: ·) ++ qs

/-- The contribution of one directory in `extract_all_folder_paths` (before
prefixing its name). -/
def extractDir (n : String) (es : List Entry) : Option (List (List String)) :=
  if n = "host" then
    (if (find_host_json_files es).isEmpty then some [] else some [[]])
  else if hasSubdir es then extractChildren es
  else siliconLeafPaths es

/-- Model of `get_all_folder_paths`: `extract_all_folder_paths` applied to the
root directory itself (the root's own name takes part in the `host` check). -/
def get_all_folder_paths (rootName : String) (es : List Entry) :
    Option (List (List String)) :=
  extractDir rootName es

/-- Navigate from a directory's entries along a path of subdirectory names
(`os.path.join(root, *folder_path)` followed by `os.listdir`). -/
def navigate : List Entry → List String → Option (List Entry)
  | es, [] => some es
  | es, name :: rest =>
    match lookupKey (get_subfolders es) name with
    | some sub => navigate sub rest
    | none => none

/-- Model of `"/".join(folder_path)` at the character level. -/
def joinChars : List (List Char) → List Char
  | [] => []
  | [x] => x
  | x :: xs => x ++ '/' :: joinChars xs

/-- `"/".join(folder_path)`. -/
def joinPath (p : List String) : String := String.mk (joinChars (p.map String.toList))

/-- Split a character sequence on `/`. -/
def splitChars : List Char → List (List Char)
  | [] => [[]]
  | c :: rest =>
    if c = '/' then [] :: splitChars rest
    else
      match splitChars rest with
      | g :: gs => (c :: g) :: gs
      | [] => [[c]]

/-- A key split on `/` (the spec's notion of a section key as a path). -/
def splitSlash (s : String) : List String := (splitChars s.toList).map String.mk

/-- Inject the proc id into one event record, as the host branch of
`get_perf_dump_data` does: empty records are skipped; non-empty records must
be dicts (`record["process-id"] = ...` raises otherwise, modelled `none`). -/
def injectPid (pid : String) (v : Json) : Option Json :=
  if v.truthy then
    match v with
    | .obj ms => some (.obj (setKey ms "process-id" (.str pid)))
    | _ => none
  else some v

/-- Inject the proc id into every event record of a parsed host file. -/
def injectAll (pid : String) : List (String × Json) → Option (List (String × Json))
  | [] => some []
  | (k, v) :: ms =>
    (injectPid pid v).bind fun v' =>
      (injectAll pid ms).map fun ms' => (k, v') :: ms'

/-- Python `dict.update`: existing keys are overwritten in place, new keys
appended in the update's order. -/
def dictUpdate {α : Type} (base upd : List (String × α)) : List (String × α) :=
  upd.foldl (fun acc kv => setKey acc kv.1 kv.2) base

/-- The host branch of `get_perf_dump_data`'s path loop: load every host file
in order, skip falsy contents, inject the file's proc id into every non-empty
event record, and merge into the accumulated mapping. A parse failure, a
truthy non-dict content, or a truthy non-dict event record aborts (`none`). -/
def processHostFiles : List (String × String) → List (String × Json) →
    Option (List (String × Json))
  | [], acc => some acc
  | (name, content) :: rest, acc =>
    match json_loads content.toList with
    | none => none
    | some d =>
      if d.truthy then
        match d with
        | .obj ms =>
          (procId_of name).bind fun pid =>
            (injectAll pid ms).bind fun ms' =>
              processHostFiles rest (dictUpdate acc ms')
        | _ => none
      else processHostFiles rest acc

/-- The silicon/model branch of `get_perf_dump_data`'s path loop over
`find_perf_json_files`: silicon contents are stored without a truthiness
check (`silicon_data[...] = json.load(file)`), model contents only when
truthy. -/
def processPerfJson (key : String) : List (String × String) →
    List (String × Json) → List (String × Json) →
    Option (List (String × Json) × List (String × Json))
  | [], s, m => some (s, m)
  | (name, content) :: rest, s, m =>
    if is_silicon_file name then
      match json_loads content.toList with
      | none => none
      | some d => processPerfJson key rest (setKey s key d) m
    else if is_model_file name then
      match json_loads content.toList with
      | none => none
      | some d =>
        if d.truthy then processPerfJson key rest s (setKey m key d)
        else processPerfJson key rest s m
    else processPerfJson key rest s m

/-- The graph branch: record each graph dump's raw text under the path key
(the last file listed wins). -/
def processGraphDumps (key : String) (gs : List (String × String))
    (g : List (String × String)) : List (String × String) :=
  gs.foldl (fun acc f => setKey acc key f.2) g

/-- The four data mappings accumulated by `get_perf_dump_data`. -/
structure PerfData where
  silicon : List (String × Json)
  model : List (String × Json)
  graph : List (String × String)
  host : List (String × Json)

/-- One iteration of `get_perf_dump_data`'s loop over a discovered folder
path. `folder_path[-1]` on an empty path raises in Python (`none`). -/
def processPath (rootEs : List Entry) (acc : PerfData) (fp : List String) :
    Option PerfData :=
  match navigate rootEs fp with
  | none => none
  | some es =>
    match fp.getLast? with
    | none => none
    | some last =>
      if last = "host" then
        (processHostFiles (find_host_json_files es) []).map fun json_data =>
          if json_data.isEmpty then acc
          else { acc with host := setKey acc.host (joinPath fp) (.obj json_data) }
      else
        (processPerfJson (joinPath fp) (find_perf_json_files es) acc.silicon
          acc.model).map fun sm =>
          { acc with
            silicon := sm.1
            model := sm.2
            graph := processGraphDumps (joinPath fp) (find_graph_dumps es) acc.graph }

/-- The data-collection loop of `get_perf_dump_data` over all discovered
folder paths. -/
def collectPerfData (rootEs : List Entry) (paths : List (List String)) :
    Option PerfData :=
  paths.foldlM (processPath rootEs) ⟨[], [], [], []⟩

/-- The emitted PerfDumpDocument: each section is present (`some`) exactly
when the source adds the corresponding key to the result dict. -/
structure PerfDoc where
  folderMap : Option FolderMap
  silicon : Option (List (String × Json))
  model : Option (List (String × Json))
  graph : Option (List (String × String))
  host : Option (List (String × Json))

/-- The empty document (`"{}"`). -/
def emptyDoc : PerfDoc := ⟨none, none, none, none, none⟩

/-- The document assembly shared by `get_perf_dump_data` and
`get_perf_dump_data_single_dir`: `folderMap` when non-empty; `silicon` when
non-empty; `model` and `graph` only inside the `silicon` conditional; `host`
(tree mode only; always empty in single-directory mode) independently. -/
def assemble (fm : FolderMap) (pd : PerfData) : PerfDoc :=
  if fm.childrenOf.isEmpty then emptyDoc
  else
    { folderMap := some fm
      silicon := if pd.silicon.isEmpty then none else some pd.silicon
      model :=
        if pd.silicon.isEmpty then none
        else if pd.model.isEmpty then none else some pd.model
      graph :=
        if pd.silicon.isEmpty then none
        else if pd.graph.isEmpty then none else some pd.graph
      host := if pd.host.isEmpty then none else some pd.host }

/-- The file loop of `get_perf_dump_data_single_dir` (unlike tree mode, the
silicon branch checks truthiness here). -/
def processPerfJsonSingle (key : String) : List (String × String) →
    List (String × Json) → List (String × Json) →
    Option (List (String × Json) × List (String × Json))
  | [], s, m => some (s, m)
  | (name, content) :: rest, s, m =>
    if is_silicon_file name then
      match json_loads content.toList with
      | none => none
      | some d =>
        if d.truthy then processPerfJsonSingle key rest (setKey s key d) m
        else processPerfJsonSingle key rest s m
    else if is_model_file name then
      match json_loads content.toList with
      | none => none
      | some d =>
        if d.truthy then processPerfJsonSingle key rest s (setKey m key d)
        else processPerfJsonSingle key rest s m
    else processPerfJsonSingle key rest s m

/-- Model of `get_perf_dump_data_single_dir`: classify the root's immediate
files under the root's own name and assemble the document. -/
def get_perf_dump_data_single_dir (rootName : String) (es : List Entry)
    (fm : FolderMap) : Option PerfDoc :=
  (processPerfJsonSingle rootName (find_perf_json_files es) [] []).map fun sm =>
    assemble fm
      ⟨sm.1, sm.2, processGraphDumps rootName (find_graph_dumps es) [], []⟩

/-- Model of `get_perf_dump_data` (tree mode): collect data over all
discovered paths and assemble the document. -/
def get_perf_dump_data (rootEs : List Entry) (fm : FolderMap)
    (paths : List (List String)) : Option PerfDoc :=
  (collectPerfData rootEs paths).map (assemble fm)

/-- Model of `PerfDumpData.__init__` on an existing directory: single-directory
mode when the root has no subdirectories (document empty unless some
silicon-pattern file exists among the immediate files), tree mode otherwise. -/
def PerfDumpData_init (rootName : String) (es : List Entry) : Option PerfDoc :=
  if (get_subfolders es).isEmpty then
    if es.any (fun e =>
        match e with
        | .file n _ => is_silicon_file n
        | .dir n _ => is_silicon_file n) then
      get_perf_dump_data_single_dir rootName es (.node [(rootName, .node [])])
    else some emptyDoc
  else
    (get_all_folder_paths rootName es).bind fun paths =>
      get_perf_dump_data es (set_folder_map paths) paths

/-! ### Wellformedness of directory trees, and folder-map lemmas -/
/-- Does a name contain no `/` (true of every real file or directory name)? -/
def slashFree (s : String) : Bool := !s.toList.contains '/'

/-- Wellformedness of a directory listing, as guaranteed by a real
filesystem: sibling names are distinct and contain no `/`, recursively. -/
def wfEntries : List Entry → Bool
  | [] => true
  | e :: rest =>
    slashFree (entryName e) && !((rest.map entryName).contains (entryName e)) &&
      (match e with
       | .dir _ sub => wfEntries sub
       | .file _ _ => true) && wfEntries rest

/-! ### Key provenance: every section key is a discovered path -/
/-- All keys appearing in the four data mappings. -/
def keysIn (pd : PerfData) : List String :=
  pd.silicon.map Prod.fst ++ pd.model.map Prod.fst ++ pd.graph.map Prod.fst ++
    pd.host.map Prod.fst

def c5content : String := String.mk (json_dumps (.obj [("a", .str "b")]))

def c5es : List Entry := [.file "perf_postprocess.json" c5content]

def c5fm : FolderMap := .node [("root", .node [])]

def c5doc : PerfDoc :=
  ⟨some c5fm, some [("root", .obj [("a", .str "b")])], none, none, none⟩

def c7files : List (String × String) :=
  [("h_proc_7.json",
    String.mk (json_dumps (.obj [("e1", .obj [("x", .str "1")]), ("e2", .obj [])])))]

def c7v : Json := .obj [("x", .str "1"), ("process-id", .str "7")]

def c7merged : List (String × Json) := [("e1", c7v), ("e2", .obj [])]

def c8content : String := String.mk (json_dumps (.obj [("x", .str "y")]))

def c8leaf : List Entry := [.file "perf_postprocess.json" c8content]

def c8es : List Entry := [.dir "run" c8leaf]

/-! ### Round-trip lemmas: digits and strings -/
theorem size_pos (v : Json) : 1 ≤ v.size := by
  cases v <;> simp [Json.size] <;> omega

theorem skipWs_cons_of_not_ws {c : Char} (t : List Char) (h : isJsonWs c = false) :
    skipWs (c :: t) = c :: t := by
  simp [skipWs, h]

theorem skipWs_cons_of_ws {c : Char} (t : List Char) (h : isJsonWs c = true) :
    skipWs (c :: t) = skipWs t := by
  simp [skipWs, h]

theorem isDigitChar_digitChar {d : Nat} (hd : d < 10) :
    isDigitChar (digitChar d) = true := by
  interval_cases d <;> decide

theorem digitVal_digitChar {d : Nat} (hd : d < 10) : digitVal (digitChar d) = d := by
  interval_cases d <;> decide

theorem natDigitsRev_digits (n : Nat) : ∀ c ∈ natDigitsRev n, isDigitChar c = true := by
  induction n using Nat.strong_induction_on with
  | _ n ih =>
    cases n with
    | zero => simp [natDigitsRev]
    | succ m =>
      rw [natDigitsRev]
      intro c hc
      rcases List.mem_cons.mp hc with h | h
      · subst h; exact isDigitChar_digitChar (Nat.mod_lt _ (by omega))
      · exact ih ((m + 1) / 10) (Nat.div_lt_self (by omega) (by omega)) c h

theorem valLE_natDigitsRev (n : Nat) : valLE (natDigitsRev n) = n := by
  induction n using Nat.strong_induction_on with
  | _ n ih =>
    cases n with
    | zero => simp [natDigitsRev, valLE]
    | succ m =>
      rw [natDigitsRev, valLE, digitVal_digitChar (Nat.mod_lt _ (by omega)),
        ih ((m + 1) / 10) (Nat.div_lt_self (by omega) (by omega))]
      omega

theorem foldl_digits_reverse (cs : List Char) (a : Nat) :
    cs.reverse.foldl (fun a c => a * 10 + digitVal c) a = a * 10 ^ cs.length + valLE cs := by
  induction cs generalizing a with
  | nil => simp [valLE]
  | cons c cs ih =>
    rw [List.reverse_cons, List.foldl_append, ih]
    simp only [List.foldl_cons, List.foldl_nil, valLE, List.length_cons]
    rw [pow_succ]
    ring

theorem digitsVal_natChars (n : Nat) : digitsVal (natChars n) = n := by
  unfold natChars
  split
  · subst ‹n = 0›; decide
  · rw [digitsVal, foldl_digits_reverse, valLE_natDigitsRev]
    omega

theorem natChars_digits (n : Nat) : ∀ c ∈ natChars n, isDigitChar c = true := by
  unfold natChars
  split
  · intro c hc; simp at hc; subst hc; decide
  · intro c hc
    exact natDigitsRev_digits n c (List.mem_reverse.mp hc)

theorem natChars_ne_nil (n : Nat) : natChars n ≠ [] := by
  unfold natChars
  split
  · simp
  · simp only [ne_eq, List.reverse_eq_nil_iff]
    cases h : natDigitsRev n with
    | nil =>
      cases n with
      | zero => omega
      | succ m => rw [natDigitsRev] at h; cases h
    | cons c t => simp
  -- `n ≠ 0` from the split hypothesis

theorem takeDigits_append (ds rest : List Char) (hds : ∀ c ∈ ds, isDigitChar c = true)
    (hrest : numBoundary rest = true) : takeDigits (ds ++ rest) = (ds, rest) := by
  induction ds with
  | nil =>
    cases rest with
    | nil => rfl
    | cons c r =>
      have : isDigitChar c = false := by
        simpa [numBoundary] using hrest
      simp [takeDigits, this]
  | cons d ds ih =>
    have hd : isDigitChar d = true := hds d (by simp)
    simp [takeDigits, hd, ih fun c hc => hds c (by simp [hc])]

theorem parseStrAux_escape (cs rest : List Char) :
    parseStrAux (escapeChars cs ++ '"' :: rest) = some (cs, rest) := by
  induction cs with
  | nil =>
    have h0 : escapeChars [] = [] := by simp [escapeChars]
    rw [h0, List.nil_append, parseStrAux.eq_def]
    simp
  | cons c cs ih =>
    have hexp : escapeChars (c :: cs) = escapeChar c ++ escapeChars cs := by
      simp [escapeChars]
    by_cases hq : c = '"'
    · subst hq
      have he : escapeChar '"' = ['\\', '"'] := by simp [escapeChar]
      rw [hexp, he]
      simp only [List.cons_append, List.nil_append, List.append_assoc]
      rw [parseStrAux.eq_def]
      simp [ih]
    · by_cases hb : c = '\\'
      · subst hb
        have he : escapeChar '\\' = ['\\', '\\'] := by simp [escapeChar]
        rw [hexp, he]
        simp only [List.cons_append, List.nil_append, List.append_assoc]
        rw [parseStrAux.eq_def]
        simp [ih]
      · have he : escapeChar c = [c] := by simp [escapeChar, hq, hb]
        rw [hexp, he]
        simp only [List.cons_append, List.nil_append, List.append_assoc]
        rw [parseStrAux.eq_def]
        simp [hq, hb, ih]

theorem string_mk_toList (s : String) : String.mk s.toList = s := rfl

theorem digit_ne {c : Char} (h : isDigitChar c = true) {d : Char}
    (hd : isDigitChar d = false) : c ≠ d := by
  intro he; subst he; rw [h] at hd; cases hd

theorem not_ws_of_digit {c : Char} (h : isDigitChar c = true) : isJsonWs c = false := by
  cases hw : isJsonWs c with
  | false => rfl
  | true =>
    simp only [isJsonWs, Bool.or_eq_true, decide_eq_true_eq] at hw
    rcases hw with ((h1 | h1) | h1) | h1 <;> subst h1 <;> exact absurd h (by decide)

theorem parseValue_ws_cons (fuel : Nat) {c : Char} (s : List Char)
    (h : isJsonWs c = true) : parseValue fuel (c :: s) = parseValue fuel s := by
  cases fuel with
  | zero => simp [parseValue]
  | succ f =>
    simp only [parseValue]
    rw [skipWs_cons_of_ws _ h]

theorem json_dumps_head (v : Json) :
    ∃ c t, json_dumps v = c :: t ∧ isJsonWs c = false ∧ c ≠ ']' ∧ c ≠ '\x7d' := by
  cases v with
  | null => exact ⟨'n', ['u', 'l', 'l'], by simp [json_dumps], by decide, by decide, by decide⟩
  | bool b =>
    cases b
    · exact ⟨'f', ['a', 'l', 's', 'e'], by simp [json_dumps], by decide, by decide, by decide⟩
    · exact ⟨'t', ['r', 'u', 'e'], by simp [json_dumps], by decide, by decide, by decide⟩
  | num n =>
    by_cases hn : n < 0
    · exact ⟨'-', natChars n.natAbs, by simp [json_dumps, intChars, hn], by decide,
        by decide, by decide⟩
    · obtain ⟨c, t, hct⟩ := List.exists_cons_of_ne_nil (natChars_ne_nil n.toNat)
      have hd : isDigitChar c = true := natChars_digits n.toNat c (by rw [hct]; simp)
      exact ⟨c, t, by simp [json_dumps, intChars, hn, hct], not_ws_of_digit hd,
        digit_ne hd (by decide), digit_ne hd (by decide)⟩
  | str s =>
    exact ⟨'"', escapeChars s.toList ++ ['"'], by simp [json_dumps], by decide,
      by decide, by decide⟩
  | arr elems =>
    exact ⟨'[', dumpsElems elems ++ [']'], by simp [json_dumps], by decide,
      by decide, by decide⟩
  | obj members =>
    exact ⟨'\x7b', dumpsMembers members ++ ['\x7d'], by simp [json_dumps], by decide,
      by decide, by decide⟩

theorem dumpsElems_cons_shape (v : Json) (vs : List Json) :
    ∃ u, dumpsElems (v :: vs) = json_dumps v ++ u := by
  cases vs with
  | nil => exact ⟨[], by simp [dumpsElems]⟩
  | cons w ws => exact ⟨',' :: ' ' :: dumpsElems (w :: ws), by simp [dumpsElems]⟩

theorem dumpsMembers_cons_shape (k : String) (v : Json) (ms : List (String × Json)) :
    ∃ u, dumpsMembers ((k, v) :: ms) =
      '"' :: (escapeChars k.toList ++ '"' :: ':' :: ' ' :: json_dumps v) ++ u := by
  cases ms with
  | nil => exact ⟨[], by simp [dumpsMembers]⟩
  | cons m ms => exact ⟨',' :: ' ' :: dumpsMembers (m :: ms), by simp [dumpsMembers]⟩

theorem skipWs_dumpsElems_append (v : Json) (vs : List Json) (t : List Char) :
    skipWs (dumpsElems (v :: vs) ++ t) = dumpsElems (v :: vs) ++ t := by
  obtain ⟨u, hu⟩ := dumpsElems_cons_shape v vs
  obtain ⟨c, t', hct, hw, _, _⟩ := json_dumps_head v
  rw [hu, hct]
  simp only [List.cons_append, List.append_assoc]
  exact skipWs_cons_of_not_ws _ hw

theorem skipWs_dumpsMembers_append (k : String) (v : Json) (ms : List (String × Json))
    (t : List Char) :
    skipWs (dumpsMembers ((k, v) :: ms) ++ t) = dumpsMembers ((k, v) :: ms) ++ t := by
  obtain ⟨u, hu⟩ := dumpsMembers_cons_shape k v ms
  rw [hu]
  simp only [List.cons_append, List.append_assoc]
  exact skipWs_cons_of_not_ws _ (by decide)

theorem parseValue_quote (fuel : Nat) (s : List Char) :
    parseValue (fuel + 1) ('"' :: s) =
      (parseStrAux s).map fun p => (.str (String.mk p.1), p.2) := by
  simp [parseValue, skipWs, isJsonWs]

theorem parseValue_lbracket (fuel : Nat) (s : List Char) :
    parseValue (fuel + 1) ('[' :: s) =
      (match skipWs s with
       | [] => none
       | c2 :: r2 =>
         if c2 = ']' then some (.arr [], r2)
         else (parseElems fuel (c2 :: r2)).map fun p => (.arr p.1, p.2)) := by
  simp [parseValue, skipWs, isJsonWs]

theorem parseValue_lbrace (fuel : Nat) (s : List Char) :
    parseValue (fuel + 1) ('\x7b' :: s) =
      (match skipWs s with
       | [] => none
       | c2 :: r2 =>
         if c2 = '\x7d' then some (.obj [], r2)
         else (parseMembers fuel (c2 :: r2)).map fun p => (.obj p.1, p.2)) := by
  simp [parseValue, skipWs, isJsonWs]

theorem parseValue_minus (fuel : Nat) (s : List Char) :
    parseValue (fuel + 1) ('-' :: s) =
      (if (takeDigits s).1 = [] then none
       else some (.num (-(digitsVal (takeDigits s).1 : Int)), (takeDigits s).2)) := by
  simp only [parseValue]
  rw [skipWs_cons_of_not_ws _ (by decide)]
  simp [skipWs, isJsonWs]
  rcases h : takeDigits s with ⟨ds, r⟩
  cases ds <;> simp

theorem parseValue_digit (fuel : Nat) {c : Char} (s : List Char)
    (hd : isDigitChar c = true) :
    parseValue (fuel + 1) (c :: s) =
      some (.num (digitsVal (takeDigits (c :: s)).1 : Int), (takeDigits (c :: s)).2) := by
  simp only [parseValue]
  rw [skipWs_cons_of_not_ws _ (not_ws_of_digit hd)]
  simp only [List.cons_append]
  rw [if_neg (digit_ne hd (show isDigitChar 'n' = false by decide)),
    if_neg (digit_ne hd (show isDigitChar 't' = false by decide)),
    if_neg (digit_ne hd (show isDigitChar 'f' = false by decide)),
    if_neg (digit_ne hd (show isDigitChar '"' = false by decide)),
    if_neg (digit_ne hd (show isDigitChar '[' = false by decide)),
    if_neg (digit_ne hd (show isDigitChar '\x7b' = false by decide)),
    if_neg (digit_ne hd (show isDigitChar '-' = false by decide)),
    if_pos hd]

/-- Main round-trip lemma: on any serializer output (followed by a non-digit
boundary), the parser returns exactly the serialized value and the leftover
input, given enough fuel. -/
theorem parse_json_dumps : ∀ fuel : Nat,
    (∀ v rest, Json.size v ≤ fuel → numBoundary rest = true →
      parseValue fuel (json_dumps v ++ rest) = some (v, rest)) ∧
    (∀ elems rest, elems ≠ [] → Json.sizeList elems + 1 ≤ fuel →
      parseElems fuel (dumpsElems elems ++ ']' :: rest) = some (elems, rest)) ∧
    (∀ members rest, members ≠ [] → Json.sizeMembers members + 1 ≤ fuel →
      parseMembers fuel (dumpsMembers members ++ '\x7d' :: rest) = some (members, rest)) := by
  intro fuel
  induction fuel with
  | zero =>
    refine ⟨fun v rest hs _ => absurd hs (by have := size_pos v; omega),
      fun elems rest _ hs => by omega, fun members rest _ hs => by omega⟩
  | succ fuel ih =>
    obtain ⟨ihP, ihQ, ihR⟩ := ih
    refine ⟨?_, ?_, ?_⟩
    · -- values
      intro v rest hsize hnb
      cases v with
      | null => simp [json_dumps, parseValue, skipWs, isJsonWs]
      | bool b => cases b <;> simp [json_dumps, parseValue, skipWs, isJsonWs]
      | str s =>
        simp only [json_dumps, List.cons_append, List.append_assoc, List.singleton_append]
        rw [parseValue_quote, parseStrAux_escape]
        simp [string_mk_toList]
      | num n =>
        by_cases hn : n < 0
        · -- negative: '-' followed by the digits of |n|
          have hts := takeDigits_append (natChars n.natAbs) rest (natChars_digits _) hnb
          have hne := natChars_ne_nil n.natAbs
          have hdv := digitsVal_natChars n.natAbs
          simp only [json_dumps, intChars, if_pos hn, List.cons_append]
          rw [parseValue_minus, hts]
          simp only [if_neg hne]
          rw [hdv]
          have : -(n.natAbs : Int) = n := by omega
          rw [this]
        · -- nonnegative: just the digits of n
          have hts := takeDigits_append (natChars n.toNat) rest (natChars_digits _) hnb
          obtain ⟨c, t, hct⟩ := List.exists_cons_of_ne_nil (natChars_ne_nil n.toNat)
          have hd : isDigitChar c = true := natChars_digits n.toNat c (by rw [hct]; simp)
          have hdv := digitsVal_natChars n.toNat
          rw [hct] at hts hdv
          simp only [json_dumps, intChars, if_neg hn, hct, List.cons_append]
          rw [parseValue_digit fuel _ hd, ← List.cons_append, hts, hdv]
          rw [Int.toNat_of_nonneg (by omega)]
      | arr elems =>
        cases elems with
        | nil => simp [json_dumps, dumpsElems, parseValue, skipWs, isJsonWs]
        | cons v vs =>
          obtain ⟨u, hu⟩ := dumpsElems_cons_shape v vs
          obtain ⟨c, t, hct, hw, hr, _⟩ := json_dumps_head v
          have hlist : dumpsElems (v :: vs) ++ ']' :: rest = c :: (t ++ u ++ ']' :: rest) := by
            rw [hu, hct]; simp
          have hq := ihQ (v :: vs) rest (by simp)
            (by simp only [Json.size] at hsize; omega)
          simp only [json_dumps, List.cons_append, List.append_assoc,
            List.singleton_append, List.nil_append]
          rw [parseValue_lbracket, hlist, skipWs_cons_of_not_ws _ hw]
          simp only [List.cons_append]
          rw [if_neg hr, ← hlist, hq]
          rfl
      | obj members =>
        cases members with
        | nil => simp [json_dumps, dumpsMembers, parseValue, skipWs, isJsonWs]
        | cons m ms =>
          obtain ⟨k, v⟩ := m
          obtain ⟨u, hu⟩ := dumpsMembers_cons_shape k v ms
          have hlist : dumpsMembers ((k, v) :: ms) ++ '\x7d' :: rest =
              '"' :: (escapeChars k.toList ++ '"' :: ':' :: ' ' :: json_dumps v ++ u ++
                '\x7d' :: rest) := by
            rw [hu]; simp
          have hq := ihR ((k, v) :: ms) rest (by simp)
            (by simp only [Json.size] at hsize; omega)
          simp only [json_dumps, List.cons_append, List.append_assoc,
            List.singleton_append, List.nil_append]
          rw [parseValue_lbrace, hlist, skipWs_cons_of_not_ws _ (by decide)]
          simp only [List.cons_append]
          rw [if_neg (show ('"' : Char) ≠ '\x7d' by decide), ← hlist, hq]
          rfl
    · -- array element lists
      intro elems rest hne hsz
      cases elems with
      | nil => exact absurd rfl hne
      | cons v vs =>
        cases vs with
        | nil =>
          have hp := ihP v (']' :: rest)
            (by simp only [Json.sizeList] at hsz; omega) (by rfl)
          simp only [dumpsElems, parseElems]
          rw [hp]
          simp [skipWs, isJsonWs]
        | cons w ws =>
          have hszv : Json.size v ≤ fuel := by
            have h1 := size_pos w
            simp only [Json.sizeList] at hsz
            omega
          have hp := ihP v (',' :: ' ' :: (dumpsElems (w :: ws) ++ ']' :: rest)) hszv (by rfl)
          have hq := ihQ (w :: ws) rest (by simp)
            (by have := size_pos v; simp only [Json.sizeList] at hsz ⊢; omega)
          simp only [dumpsElems, List.append_assoc, List.cons_append]
          simp only [parseElems]
          rw [hp]
          simp only [skipWs_cons_of_not_ws _ (show isJsonWs ',' = false by decide)]
          rw [show skipWs (' ' :: (dumpsElems (w :: ws) ++ ']' :: rest)) =
            dumpsElems (w :: ws) ++ ']' :: rest by
              rw [skipWs_cons_of_ws _ (by decide)]
              exact skipWs_dumpsElems_append w ws _]
          rw [hq]
          rfl
    · -- object member lists
      intro members rest hne hsz
      cases members with
      | nil => exact absurd rfl hne
      | cons m ms =>
        obtain ⟨k, v⟩ := m
        cases ms with
        | nil =>
          have hp := ihP v ('\x7d' :: rest)
            (by simp only [Json.sizeMembers] at hsz; omega) (by rfl)
          simp only [dumpsMembers, List.append_assoc, List.cons_append]
          simp only [parseMembers]
          rw [show (escapeChars k.toList ++ '"' :: ':' :: ' ' :: (json_dumps v ++ '\x7d' :: rest) :
            List Char) = escapeChars k.toList ++ '"' ::
              (':' :: ' ' :: (json_dumps v ++ '\x7d' :: rest)) by simp]
          rw [parseStrAux_escape]
          simp only [skipWs_cons_of_not_ws _ (show isJsonWs ':' = false by decide)]
          rw [parseValue_ws_cons fuel _ (by decide), hp]
          simp only [skipWs_cons_of_not_ws _ (show isJsonWs '\x7d' = false by decide)]
          simp [string_mk_toList]
        | cons m2 ms2 =>
          have hszv : Json.size v ≤ fuel := by
            have h1 := size_pos m2.2
            simp only [Json.sizeMembers] at hsz
            omega
          have hp := ihP v (',' :: ' ' :: (dumpsMembers (m2 :: ms2) ++ '\x7d' :: rest))
            hszv (by rfl)
          have hq := ihR (m2 :: ms2) rest (by simp)
            (by have := size_pos v; simp only [Json.sizeMembers] at hsz ⊢; omega)
          simp only [dumpsMembers, List.append_assoc, List.cons_append]
          simp only [parseMembers]
          rw [show (escapeChars k.toList ++ '"' :: ':' :: ' ' :: (json_dumps v ++
              ',' :: ' ' :: (dumpsMembers (m2 :: ms2) ++ '\x7d' :: rest)) : List Char) =
            escapeChars k.toList ++ '"' :: (':' :: ' ' :: (json_dumps v ++
              ',' :: ' ' :: (dumpsMembers (m2 :: ms2) ++ '\x7d' :: rest))) by simp]
          rw [parseStrAux_escape]
          simp only [skipWs_cons_of_not_ws _ (show isJsonWs ':' = false by decide)]
          rw [parseValue_ws_cons fuel _ (by decide), hp]
          simp only [skipWs_cons_of_not_ws _ (show isJsonWs ',' = false by decide)]
          rw [show skipWs (' ' :: (dumpsMembers (m2 :: ms2) ++ '\x7d' :: rest)) =
            dumpsMembers (m2 :: ms2) ++ '\x7d' :: rest by
              rw [skipWs_cons_of_ws _ (by decide)]
              obtain ⟨k2, v2⟩ := m2
              exact skipWs_dumpsMembers_append k2 v2 ms2 _]
          rw [hq]
          simp [string_mk_toList]

mutual

theorem size_le_dumps (v : Json) : Json.size v ≤ (json_dumps v).length + 1 := by
  cases v with
  | null => simp [json_dumps, Json.size]
  | bool b => cases b <;> simp [json_dumps, Json.size]
  | num n => simp [json_dumps, Json.size]
  | str s => simp [json_dumps, Json.size]
  | arr elems =>
    have h := sizeList_le_dumpsElems elems
    simp only [json_dumps, Json.size, List.length_cons, List.length_append]
    omega
  | obj members =>
    have h := sizeMembers_le_dumpsMembers members
    simp only [json_dumps, Json.size, List.length_cons, List.length_append]
    omega

theorem sizeList_le_dumpsElems (elems : List Json) :
    Json.sizeList elems ≤ (dumpsElems elems).length + 1 := by
  cases elems with
  | nil => simp [dumpsElems, Json.sizeList]
  | cons v vs =>
    cases vs with
    | nil =>
      have h := size_le_dumps v
      simp only [dumpsElems, Json.sizeList, Json.sizeList.eq_1]
      omega
    | cons w ws =>
      have h1 := size_le_dumps v
      have h2 := sizeList_le_dumpsElems (w :: ws)
      simp only [Json.sizeList] at h2
      simp only [dumpsElems, Json.sizeList, List.length_append, List.length_cons]
      omega

theorem sizeMembers_le_dumpsMembers (members : List (String × Json)) :
    Json.sizeMembers members ≤ (dumpsMembers members).length + 1 := by
  cases members with
  | nil => simp [dumpsMembers, Json.sizeMembers]
  | cons m ms =>
    obtain ⟨k, v⟩ := m
    cases ms with
    | nil =>
      have h := size_le_dumps v
      simp only [dumpsMembers, Json.sizeMembers, Json.sizeMembers.eq_1, List.length_cons,
        List.length_append]
      omega
    | cons m2 ms2 =>
      have h1 := size_le_dumps v
      have h2 := sizeMembers_le_dumpsMembers (m2 :: ms2)
      simp only [Json.sizeMembers] at h2
      simp only [dumpsMembers, Json.sizeMembers, List.length_append, List.length_cons]
      omega

end

/-- `json.loads` inverts `json.dumps` on every modelled JSON value. -/
theorem json_loads_dumps (v : Json) : json_loads (json_dumps v) = some v := by
  unfold json_loads
  have h := (parse_json_dumps ((json_dumps v).length + 1)).1 v [] (size_le_dumps v) (by rfl)
  rw [List.append_nil] at h
  rw [h]
  simp [skipWs]

theorem char_toNat_valid (c : Char) :
    c.toNat < 0xD800 ∨ (0xDFFF < c.toNat ∧ c.toNat < 0x110000) := c.valid

theorem char_toNat_lt (c : Char) : c.toNat < 0x110000 := by
  rcases char_toNat_valid c with h | h
  · omega
  · omega

theorem utf8Cont_of (b : Nat) (h1 : 0x80 ≤ b) (h2 : b < 0xC0) : utf8Cont b = true := by
  simp [utf8Cont]; omega

theorem utf8Decode_one {b : Nat} (rest : List Nat) (h : b < 0x80) :
    utf8Decode (b :: rest) = (utf8Decode rest).map (Char.ofNat b :: ·) := by
  rw [utf8Decode.eq_def]
  simp only [if_pos h]

theorem utf8Decode_two {b b2 : Nat} (rest : List Nat) (hb : 0xC0 + 2 ≤ b) (hb' : b < 0xE0)
    (h2 : 0x80 ≤ b2) (h2' : b2 < 0xC0) :
    utf8Decode (b :: b2 :: rest) =
      (utf8Decode rest).map (Char.ofNat ((b - 0xC0) * 64 + (b2 - 0x80)) :: ·) := by
  rw [utf8Decode.eq_def]
  simp only [if_neg (show ¬b < 0x80 by omega), if_neg (show ¬b < 0xC0 by omega), if_pos hb']
  rw [utf8DecodeTwo.eq_def]
  simp only [utf8Cont_of b2 h2 h2', if_pos (show 0x80 ≤ (b - 0xC0) * 64 + (b2 - 0x80) by omega)]
  simp

theorem utf8Decode_three {b b2 b3 : Nat} (rest : List Nat) (hb : 0xE0 ≤ b) (hb' : b < 0xF0)
    (h2 : 0x80 ≤ b2) (h2' : b2 < 0xC0) (h3 : 0x80 ≤ b3) (h3' : b3 < 0xC0)
    (hu : 0x800 ≤ (b - 0xE0) * 4096 + (b2 - 0x80) * 64 + (b3 - 0x80))
    (hs : ¬(0xD800 ≤ (b - 0xE0) * 4096 + (b2 - 0x80) * 64 + (b3 - 0x80) ∧
      (b - 0xE0) * 4096 + (b2 - 0x80) * 64 + (b3 - 0x80) < 0xE000)) :
    utf8Decode (b :: b2 :: b3 :: rest) =
      (utf8Decode rest).map
        (Char.ofNat ((b - 0xE0) * 4096 + (b2 - 0x80) * 64 + (b3 - 0x80)) :: ·) := by
  rw [utf8Decode.eq_def]
  simp only [if_neg (show ¬b < 0x80 by omega), if_neg (show ¬b < 0xC0 by omega),
    if_neg (show ¬b < 0xE0 by omega), if_pos hb']
  rw [utf8DecodeThreeA.eq_def]
  simp only [utf8Cont_of b2 h2 h2']
  rw [utf8DecodeThreeB.eq_def]
  simp only [utf8Cont_of b3 h3 h3', if_pos (And.intro hu hs)]
  simp

theorem utf8Decode_four {b b2 b3 b4 : Nat} (rest : List Nat) (hb : 0xF0 ≤ b) (hb' : b < 0xF8)
    (h2 : 0x80 ≤ b2) (h2' : b2 < 0xC0) (h3 : 0x80 ≤ b3) (h3' : b3 < 0xC0)
    (h4 : 0x80 ≤ b4) (h4' : b4 < 0xC0)
    (hu : 0x10000 ≤ (b - 0xF0) * 262144 + (b2 - 0x80) * 4096 + (b3 - 0x80) * 64 + (b4 - 0x80))
    (hu' : (b - 0xF0) * 262144 + (b2 - 0x80) * 4096 + (b3 - 0x80) * 64 + (b4 - 0x80) <
      0x110000) :
    utf8Decode (b :: b2 :: b3 :: b4 :: rest) =
      (utf8Decode rest).map
        (Char.ofNat ((b - 0xF0) * 262144 + (b2 - 0x80) * 4096 + (b3 - 0x80) * 64 +
          (b4 - 0x80)) :: ·) := by
  rw [utf8Decode.eq_def]
  simp only [if_neg (show ¬b < 0x80 by omega), if_neg (show ¬b < 0xC0 by omega),
    if_neg (show ¬b < 0xE0 by omega), if_neg (show ¬b < 0xF0 by omega), if_pos hb']
  rw [utf8DecodeFourA.eq_def]
  simp only [utf8Cont_of b2 h2 h2']
  rw [utf8DecodeFourB.eq_def]
  simp only [utf8Cont_of b3 h3 h3']
  rw [utf8DecodeFourC.eq_def]
  simp only [utf8Cont_of b4 h4 h4', if_pos (And.intro hu hu')]
  simp

/-- UTF-8 decoding inverts UTF-8 encoding. -/
theorem utf8Decode_encode (cs : List Char) : utf8Decode (utf8Encode cs) = some cs := by
  induction cs with
  | nil => rfl
  | cons c cs ih =>
    have hflat : utf8Encode (c :: cs) = utf8EncodeChar c.toNat ++ utf8Encode cs := by
      simp [utf8Encode]
    have hv := char_toNat_valid c
    have hlt := char_toNat_lt c
    rw [hflat]
    by_cases h1 : c.toNat < 0x80
    · rw [show utf8EncodeChar c.toNat = [c.toNat] by simp [utf8EncodeChar, h1]]
      simp only [List.cons_append, List.nil_append]
      rw [utf8Decode_one _ h1, ih, Char.ofNat_toNat]
      rfl
    · by_cases h2 : c.toNat < 0x800
      · rw [show utf8EncodeChar c.toNat =
          [0xC0 + c.toNat / 64, 0x80 + c.toNat % 64] by simp [utf8EncodeChar, h1, h2]]
        simp only [List.cons_append, List.nil_append]
        rw [utf8Decode_two _ (by omega) (by omega) (by omega) (by omega)]
        rw [show (0xC0 + c.toNat / 64 - 0xC0) * 64 + (0x80 + c.toNat % 64 - 0x80) =
          c.toNat by omega]
        rw [ih, Char.ofNat_toNat]
        rfl
      · by_cases h3 : c.toNat < 0x10000
        · rw [show utf8EncodeChar c.toNat =
            [0xE0 + c.toNat / 4096, 0x80 + c.toNat / 64 % 64, 0x80 + c.toNat % 64] by
              simp [utf8EncodeChar, h1, h2, h3]]
          simp only [List.cons_append, List.nil_append]
          rw [utf8Decode_three _ (by omega) (by omega) (by omega) (by omega) (by omega)
            (by omega) (by omega) (by omega)]
          rw [show (0xE0 + c.toNat / 4096 - 0xE0) * 4096 + (0x80 + c.toNat / 64 % 64 - 0x80) *
            64 + (0x80 + c.toNat % 64 - 0x80) = c.toNat by omega]
          rw [ih, Char.ofNat_toNat]
          rfl
        · rw [show utf8EncodeChar c.toNat =
            [0xF0 + c.toNat / 262144, 0x80 + c.toNat / 4096 % 64, 0x80 + c.toNat / 64 % 64,
              0x80 + c.toNat % 64] by simp [utf8EncodeChar, h1, h2, h3]]
          simp only [List.cons_append, List.nil_append]
          rw [utf8Decode_four _ (by omega) (by omega) (by omega) (by omega) (by omega)
            (by omega) (by omega) (by omega) (by omega) (by omega)]
          rw [show (0xF0 + c.toNat / 262144 - 0xF0) * 262144 +
            (0x80 + c.toNat / 4096 % 64 - 0x80) * 4096 + (0x80 + c.toNat / 64 % 64 - 0x80) *
            64 + (0x80 + c.toNat % 64 - 0x80) = c.toNat by omega]
          rw [ih, Char.ofNat_toNat]
          rfl

theorem unpackLE4_packLE4 (n : Nat) (h : n < 2147483648) :
    unpackLE4 (packLE4 n) = (n : Int) := by
  simp only [packLE4, unpackLE4, List.getD_cons_zero, List.getD_cons_succ]
  rw [if_pos (by omega)]
  omega

theorem utf8EncodeChar_ne_nil (n : Nat) : utf8EncodeChar n ≠ [] := by
  unfold utf8EncodeChar
  split
  · simp
  · split
    · simp
    · split <;> simp

theorem utf8Encode_length_pos {cs : List Char} (h : cs ≠ []) :
    0 < (utf8Encode cs).length := by
  cases cs with
  | nil => exact absurd rfl h
  | cons c cs =>
    have h1 : utf8Encode (c :: cs) = utf8EncodeChar c.toNat ++ utf8Encode cs := by
      simp [utf8Encode]
    rw [h1, List.length_append]
    have h2 := utf8EncodeChar_ne_nil c.toNat
    cases he : utf8EncodeChar c.toNat with
    | nil => exact absurd he h2
    | cons b bs => simp [he]

/-- The receive loop reads exactly the pending stream when the stream holds
exactly the announced number of bytes, for every chunk-size schedule. -/
theorem recvLoop_exact : ∀ (d expected received : Nat) (sched : List Nat) (wire : List Nat),
    expected - received = d → received ≤ expected → wire.length = expected - received →
    recvLoop wire expected received sched = some wire := by
  intro d
  induction d using Nat.strong_induction_on with
  | _ d ih =>
    intro expected received sched wire hd hle hlen
    rw [recvLoop.eq_def]
    by_cases h : received < expected
    · rw [if_pos h]
      have hw1 : 1 ≤ wire.length := by omega
      have hk0 : ¬(min (min (max 16 (expected - received))
          (max (sched.headD (max 16 (expected - received))) 1)) wire.length = 0) := by
        omega
      rw [dif_neg hk0]
      rw [ih (expected - (received + min (min (max 16 (expected - received))
            (max (sched.headD (max 16 (expected - received))) 1)) wire.length))
          (by omega) expected _ sched.tail _ rfl (by omega)
          (by rw [List.length_drop]; omega)]
      simp
    · rw [if_neg h]
      have : wire.length = 0 := by omega
      rw [List.length_eq_zero.mp this]

/-- Framed send followed by framed receive yields the normalized response
object, for every Response mapping whose encoding fits the length prefix and
every TCP chunking schedule. -/
theorem receive_cmd_send_response (d : List (String × Json)) (wire : List Nat)
    (sched : List Nat) (h : send_response d = some wire) :
    receive_cmd wire sched = some (.obj (normalizeError d)) := by
  unfold send_response at h
  by_cases hl : (utf8Encode (json_dumps (.obj (normalizeError d)))).length < 2147483648
  · rw [if_pos hl] at h
    have hwire := Option.some.inj h
    subst hwire
    have hplen : (packLE4 (utf8Encode (json_dumps (.obj (normalizeError d)))).length).length =
        4 := by simp [packLE4]
    have hne : json_dumps (.obj (normalizeError d)) ≠ [] := by
      obtain ⟨c, t, hct, _, _, _⟩ := json_dumps_head (.obj (normalizeError d))
      rw [hct]; simp
    have hpos := utf8Encode_length_pos hne
    unfold receive_cmd
    rw [if_neg (by rw [List.length_append, hplen]; omega)]
    rw [List.take_left' hplen, List.drop_left' hplen]
    rw [unpackLE4_packLE4 _ hl]
    rw [if_neg (by omega : ¬((utf8Encode (json_dumps (.obj (normalizeError d)))).length : Int) ≤ 0)]
    rw [show ((utf8Encode (json_dumps (.obj (normalizeError d)))).length : Int).toNat =
      (utf8Encode (json_dumps (.obj (normalizeError d)))).length by omega]
    rw [recvLoop_exact _ _ 0 sched _ rfl (by omega) (by omega)]
    simp only [utf8Decode_encode, json_loads_dumps]
  · rw [if_neg hl] at h
    cases h

theorem utf8EncodeChar_length_le (n : Nat) : (utf8EncodeChar n).length ≤ 4 := by
  unfold utf8EncodeChar
  split
  · simp
  · split
    · simp
    · split <;> simp

theorem utf8Encode_length_le (cs : List Char) : (utf8Encode cs).length ≤ 4 * cs.length := by
  induction cs with
  | nil => simp [utf8Encode]
  | cons c cs ih =>
    have h1 : utf8Encode (c :: cs) = utf8EncodeChar c.toNat ++ utf8Encode cs := by
      simp [utf8Encode]
    have h2 := utf8EncodeChar_length_le c.toNat
    rw [h1, List.length_append]
    simp only [List.length_cons]
    omega

theorem lookupKey_setKey_self {α : Type} (d : List (String × α)) (k : String) (v : α) :
    lookupKey (setKey d k v) k = some v := by
  induction d with
  | nil => simp [setKey, lookupKey]
  | cons p rest ih =>
    obtain ⟨k', v'⟩ := p
    by_cases h : k' = k
    · subst h
      simp [setKey, lookupKey]
    · simp [setKey, lookupKey, h, ih]

/-- C3: every Response mapping sent through `send_response` ends up with a
string-valued `error` entry: absent or `None` errors become `""`, and a
present string error is sent unchanged (the whole mapping is unchanged). -/
theorem claim_C3_send_error_normalized (d : List (String × Json))
    (h : ∀ v, lookupKey d "error" = some v → v = .null ∨ ∃ s, v = .str s) :
    (∃ s, lookupKey (normalizeError d) "error" = some (.str s)) ∧
    ((lookupKey d "error" = none ∨ lookupKey d "error" = some .null) →
      lookupKey (normalizeError d) "error" = some (.str "")) ∧
    (∀ v, lookupKey d "error" = some v → v ≠ .null → normalizeError d = d) := by
  cases hl : lookupKey d "error" with
  | none =>
    have hn : normalizeError d = setKey d "error" (.str "") := by
      simp [normalizeError, hl, isNoneOrNull]
    refine ⟨⟨"", by rw [hn, lookupKey_setKey_self]⟩, fun _ => by rw [hn, lookupKey_setKey_self],
      fun v hv _ => by cases hv⟩
  | some v =>
    rcases h v hl with hv | ⟨s, hv⟩
    · subst hv
      have hn : normalizeError d = setKey d "error" (.str "") := by
        simp [normalizeError, hl, isNoneOrNull]
      refine ⟨⟨"", by rw [hn, lookupKey_setKey_self]⟩,
        fun _ => by rw [hn, lookupKey_setKey_self],
        fun w hw hwn => by cases hw; exact absurd rfl hwn⟩
    · subst hv
      have hn : normalizeError d = d := by
        simp [normalizeError, hl, isNoneOrNull]
      refine ⟨⟨s, by rw [hn, hl]⟩, ?_, fun w hw _ => hn⟩
      rintro (h1 | h1) <;> cases h1

/-- C3 witness: a response with `error = None` is sent with `error = ""`. -/
theorem claim_C3_witness :
    lookupKey (normalizeError [("error", Json.null)]) "error" = some (.str "") := by
  have hlv : lookupKey [("error", Json.null)] "error" = some Json.null := by
    simp [lookupKey]
  have h := claim_C3_send_error_normalized [("error", Json.null)]
    (fun v hv => by
      rw [hlv] at hv
      exact Or.inl (Option.some.inj hv).symm)
  exact h.2.1 (Or.inr hlv)

/-- C2 counterexample: the empty Response mapping does not round-trip to
itself through the networked channel — the received value carries the
normalized `error = ""` entry that `send_response` added. -/
theorem claim_C2_counterexample :
    (send_response ([] : List (String × Json))).bind (fun wire => receive_cmd wire []) =
      some (.obj [("error", Json.str "")]) ∧
    Json.obj [("error", Json.str "")] ≠ Json.obj ([] : List (String × Json)) := by
  have hnorm : normalizeError ([] : List (String × Json)) = [("error", Json.str "")] := by
    simp [normalizeError, lookupKey, isNoneOrNull, setKey]
  have hdump : json_dumps (.obj (normalizeError ([] : List (String × Json)))) =
      ['\x7b', '"', 'e', 'r', 'r', 'o', 'r', '"', ':', ' ', '"', '"', '\x7d'] := by
    rw [hnorm]
    simp [json_dumps, dumpsMembers, escapeChars, escapeChar]
  have hfits : (utf8Encode (json_dumps (.obj (normalizeError
      ([] : List (String × Json)))))).length < 2147483648 := by
    rw [hdump]
    have h1 := utf8Encode_length_le
      ['\x7b', '"', 'e', 'r', 'r', 'o', 'r', '"', ':', ' ', '"', '"', '\x7d']
    simp at h1
    omega
  have hsend : send_response ([] : List (String × Json)) =
      some (packLE4 (utf8Encode (json_dumps (.obj (normalizeError
          ([] : List (String × Json)))))).length ++
        utf8Encode (json_dumps (.obj (normalizeError ([] : List (String × Json)))))) := by
    unfold send_response
    rw [if_pos hfits]
  refine ⟨?_, by simp⟩
  rw [hsend]
  simp only [Option.some_bind]
  rw [receive_cmd_send_response _ _ _ hsend, hnorm]

/-- C2 (amended): a Response mapping that already carries a non-null `error`
entry round-trips exactly: framing it with `send_response` and unframing with
`receive_cmd` reproduces the original mapping, for every chunk schedule. -/
theorem claim_C2_roundtrip (d : List (String × Json)) (wire : List Nat) (sched : List Nat)
    (hsend : send_response d = some wire)
    (herr : ∃ v, lookupKey d "error" = some v ∧ v ≠ .null) :
    receive_cmd wire sched = some (.obj d) := by
  have h := receive_cmd_send_response d wire sched hsend
  obtain ⟨v, hv, hvn⟩ := herr
  have hn : isNoneOrNull (lookupKey d "error") = false := by
    rw [hv]
    cases v <;> first | exact absurd rfl hvn | rfl
  have : normalizeError d = d := by
    simp [normalizeError, hn]
  rw [this] at h
  exact h

/-- C2 witness: a concrete Response with a string error round-trips exactly
through the channel under a 5-byte chunk schedule. -/
theorem claim_C2_witness :
    receive_cmd (packLE4 (utf8Encode (json_dumps (.obj [("error", Json.str "ok")]))).length ++
      utf8Encode (json_dumps (.obj [("error", Json.str "ok")]))) [5] =
      some (.obj [("error", Json.str "ok")]) := by
  have hnorm : normalizeError [("error", Json.str "ok")] = [("error", Json.str "ok")] := by
    simp [normalizeError, lookupKey, isNoneOrNull]
  have hdump : json_dumps (.obj (normalizeError [("error", Json.str "ok")])) =
      ['\x7b', '"', 'e', 'r', 'r', 'o', 'r', '"', ':', ' ', '"', 'o', 'k', '"', '\x7d'] := by
    rw [hnorm]
    simp [json_dumps, dumpsMembers, escapeChars, escapeChar]
  have hfits : (utf8Encode (json_dumps (.obj (normalizeError
      [("error", Json.str "ok")])))).length < 2147483648 := by
    rw [hdump]
    have h1 := utf8Encode_length_le
      ['\x7b', '"', 'e', 'r', 'r', 'o', 'r', '"', ':', ' ', '"', 'o', 'k', '"', '\x7d']
    simp at h1
    omega
  have hsend : send_response [("error", Json.str "ok")] =
      some (packLE4 (utf8Encode (json_dumps (.obj [("error", Json.str "ok")]))).length ++
        utf8Encode (json_dumps (.obj [("error", Json.str "ok")]))) := by
    unfold send_response
    rw [hnorm] at hfits ⊢
    rw [if_pos hfits]
  exact claim_C2_roundtrip _ _ _ hsend
    ⟨Json.str "ok", by simp [lookupKey], by simp⟩

theorem gtoLoop_alive (items : List StdoutItem) : (gtoLoop items).2.2.2.2 = true := by
  induction items with
  | nil => rfl
  | cons it rest ih =>
    cases it with
    | line l =>
      by_cases h : pyRstrip l = TEST_PROMPT
      · simp [gtoLoop, h]
      · rcases hg : gtoLoop rest with ⟨out, err, prompt, rem, alive⟩
        rw [hg] at ih
        simp only at ih
        simp [gtoLoop, h, hg, ih]
    | fail msg => rfl

/-- C10: whenever `get_test_output` returns with the prompt flag false —
process exit without a prompt, or a read failure — the child process has been
forcibly killed before the function returned. -/
theorem claim_C10_no_prompt_kills (items : List StdoutItem)
    (h : (get_test_output items).prompt = false) :
    (get_test_output items).killed = true := by
  unfold get_test_output at h ⊢
  rcases hg : gtoLoop items with ⟨out, err, prompt, rem, alive⟩
  have ha := gtoLoop_alive items
  rw [hg] at ha
  simp only [hg] at h ⊢
  simp only at h ha ⊢
  cases prompt with
  | true =>
    rw [if_pos rfl] at h
    rw [ha] at h
    cases h
  | false => rfl

/-- C10 witness: a child that prints one line and exits without a prompt is
killed. -/
theorem claim_C10_witness : (get_test_output [.line "partial"]).killed = true :=
  claim_C10_no_prompt_kills [.line "partial"] (by decide)

/-- C4: when all three run-test steps reach their expected ends (prompt,
prompt, exit), the response's `output` is the concatenation of the non-prompt
lines of steps 1, 2 and 3 in order, `data` is exactly step 2's lines, and
`error` is the empty string. -/
theorem claim_C4_run_test_outputs (stream : List StdoutItem)
    (h1e : (get_test_output stream).error = none)
    (h1p : (get_test_output stream).prompt = true)
    (h2e : (get_test_output (get_test_output stream).rest).error = none)
    (h2p : (get_test_output (get_test_output stream).rest).prompt = true)
    (h3e : (get_test_output (get_test_output (get_test_output stream).rest).rest).error = none)
    (h3p : (get_test_output (get_test_output (get_test_output stream).rest).rest).prompt =
      false) :
    runTestCmd stream =
      [("error", Json.str ""),
       ("output", jsonOfLines ((get_test_output stream).output ++
         (get_test_output (get_test_output stream).rest).output ++
         (get_test_output (get_test_output (get_test_output stream).rest).rest).output)),
       ("data", jsonOfLines (get_test_output (get_test_output stream).rest).output)] := by
  simp [runTestCmd, h1e, h1p, h2e, h2p, h3e, normalizeError, lookupKey, isNoneOrNull,
    setKey, jsonOfOptStr]

/-- C4 witness: the mock child printing "line1", the prompt, "line2", the
prompt, then exiting yields output `["line1", "line2"]` and data
`["line2"]`. -/
theorem claim_C4_witness :
    runTestCmd [.line "line1", .line "  CMD>", .line "line2", .line "  CMD>"] =
      [("error", Json.str ""), ("output", jsonOfLines ["line1", "line2"]),
        ("data", jsonOfLines ["line2"])] := by
  have h := claim_C4_run_test_outputs
    [.line "line1", .line "  CMD>", .line "line2", .line "  CMD>"]
    (by decide) (by decide) (by decide) (by decide) (by decide) (by decide)
  rw [h]
  rfl

/-- C1 (code bug): for a step-2 read failure the handler does stop, but the
response's failure reason is the empty string (the source sends step 1's
`test["error"]`, which is `None` at that point); for a step-2 stream that ends
without a prompt the handler does not stop at all — it proceeds to step 3 and
sends a final response (with `data` and an empty error) instead of the
"Test stopped after first command." failure, because the source re-checks
step 1's `test["prompt"]`. -/
theorem claim_C1_step2_failure_behavior :
    runTestCmd [.line "  CMD>", .fail "boom"] =
      [("error", Json.str ""), ("output", Json.arr [])] ∧
    runTestCmd [.line "  CMD>"] =
      [("error", Json.str ""), ("output", Json.arr []), ("data", Json.arr [])] :=
  ⟨rfl, rfl⟩

theorem assemble_model_graph_gate (fm : FolderMap) (pd : PerfData)
    (h : (assemble fm pd).silicon = none ∨ (assemble fm pd).silicon = some []) :
    (assemble fm pd).model = none ∧ (assemble fm pd).graph = none := by
  unfold assemble at h ⊢
  cases hfm : fm.childrenOf.isEmpty with
  | true => simp [hfm, emptyDoc]
  | false =>
    simp only [hfm, Bool.false_eq_true, if_false] at h ⊢
    cases hs : pd.silicon.isEmpty with
    | true => simp [hs]
    | false =>
      simp [hs] at h
      rw [h] at hs
      simp at hs

/-- C6: in single-directory mode, a document whose `silicon` section is empty
or absent has no `model` and no `graph` section either, regardless of which
runtime-table or graph-dump files are present. -/
theorem claim_C6_single_dir_gating (rootName : String) (es : List Entry) (doc : PerfDoc)
    (hmode : get_subfolders es = [])
    (hdoc : PerfDumpData_init rootName es = some doc)
    (hsil : doc.silicon = none ∨ doc.silicon = some []) :
    doc.model = none ∧ doc.graph = none := by
  unfold PerfDumpData_init at hdoc
  rw [hmode] at hdoc
  simp only [List.isEmpty_nil, if_true] at hdoc
  by_cases hfound : (es.any fun e =>
      match e with
      | .file n _ => is_silicon_file n
      | .dir n _ => is_silicon_file n) = true
  · rw [if_pos hfound] at hdoc
    unfold get_perf_dump_data_single_dir at hdoc
    rcases hp : processPerfJsonSingle rootName (find_perf_json_files es) [] [] with _ | sm
    · rw [hp] at hdoc
      cases hdoc
    · rw [hp] at hdoc
      simp only [Option.map_some', Option.some.injEq] at hdoc
      subst hdoc
      exact assemble_model_graph_gate _ _ hsil
  · rw [if_neg hfound] at hdoc
    simp only [Option.some.injEq] at hdoc
    subst hdoc
    exact ⟨rfl, rfl⟩

/-- C6 witness: a directory holding a null-content postprocess file, a truthy
runtime table and a graph dump emits a document with `model` and `graph`
absent. -/
theorem claim_C6_witness :
    PerfDumpData_init "run1"
      [.file "perf_postprocess.json" (String.mk (json_dumps Json.null)),
       .file "runtime_table.json" (String.mk (json_dumps (.obj [("a", .str "b")]))),
       .file "perf_graph_g.dot" "digraph"] =
      some ⟨some (.node [("run1", .node [])]), none, none, none, none⟩ ∧
    (⟨some (.node [("run1", .node [])]), none, none, none, none⟩ : PerfDoc).model = none ∧
    (⟨some (.node [("run1", .node [])]), none, none, none, none⟩ : PerfDoc).graph = none := by
  refine ⟨rfl, ?_⟩
  exact claim_C6_single_dir_gating "run1"
    [.file "perf_postprocess.json" (String.mk (json_dumps Json.null)),
     .file "runtime_table.json" (String.mk (json_dumps (.obj [("a", .str "b")]))),
     .file "perf_graph_g.dot" "digraph"]
    ⟨some (.node [("run1", .node [])]), none, none, none, none⟩ rfl rfl (Or.inl rfl)

/-- C9 counterexample: a single directory holding only a classifiable model
file (`runtime_table.json`) emits the empty document, with no folder map —
the silicon-pattern check alone decides between the empty document and the
one-entry folder map. -/
theorem claim_C9_counterexample :
    PerfDumpData_init "run1"
      [.file "runtime_table.json" (String.mk (json_dumps (.obj [("a", .str "b")])))] =
      some emptyDoc ∧
    is_model_file "runtime_table.json" = true ∧
    emptyDoc.folderMap = none :=
  ⟨rfl, by decide, rfl⟩

/-- C9 (amended): in single-directory mode, if no silicon postprocess file
(plain or per-epoch) exists among the root's immediate files the emitted
document is empty; otherwise the emitted document's folder map has exactly
one entry, keyed by the root directory's own name. -/
theorem claim_C9_single_dir_empty_or_rooted (rootName : String) (es : List Entry)
    (hmode : get_subfolders es = []) :
    ((es.any fun e =>
        match e with
        | .file n _ => is_silicon_file n
        | .dir n _ => is_silicon_file n) = false →
      PerfDumpData_init rootName es = some emptyDoc) ∧
    (∀ doc, (es.any fun e =>
        match e with
        | .file n _ => is_silicon_file n
        | .dir n _ => is_silicon_file n) = true →
      PerfDumpData_init rootName es = some doc →
      doc.folderMap = some (.node [(rootName, .node [])])) := by
  constructor
  · intro h
    unfold PerfDumpData_init
    rw [hmode]
    simp [h]
  · intro doc h hdoc
    unfold PerfDumpData_init at hdoc
    rw [hmode] at hdoc
    simp only [List.isEmpty_nil, if_true, h] at hdoc
    unfold get_perf_dump_data_single_dir at hdoc
    rcases hp : processPerfJsonSingle rootName (find_perf_json_files es) [] [] with _ | sm
    · rw [hp] at hdoc
      cases hdoc
    · rw [hp] at hdoc
      simp only [Option.map_some', Option.some.injEq] at hdoc
      subst hdoc
      simp [assemble, FolderMap.childrenOf]

/-- C9 witness: a directory with no silicon file emits the empty document; a
directory with one emits the one-entry folder map keyed by the root's name. -/
theorem claim_C9_witness :
    PerfDumpData_init "run1" [.file "other.txt" "x"] = some emptyDoc ∧
    (⟨some (.node [("run1", .node [])]), some [("run1", .obj [("g", .str "x")])], none, none,
      none⟩ : PerfDoc).folderMap = some (.node [("run1", .node [])]) := by
  refine ⟨(claim_C9_single_dir_empty_or_rooted "run1" [.file "other.txt" "x"] rfl).1
    (by decide), ?_⟩
  exact (claim_C9_single_dir_empty_or_rooted "run1"
    [.file "perf_postprocess.json" (String.mk (json_dumps (.obj [("g", .str "x")])))] rfl).2
    _ (by decide) rfl

theorem lookupKey_setKey_ne {α : Type} (l : List (String × α)) {k k0 : String} (v : α)
    (h : k ≠ k0) : lookupKey (setKey l k0 v) k = lookupKey l k := by
  induction l with
  | nil => simp [setKey, lookupKey, Ne.symm h]
  | cons p rest ih =>
    obtain ⟨k', v'⟩ := p
    by_cases hk : k' = k0
    · subst hk
      simp [setKey, lookupKey, Ne.symm h]
    · simp only [setKey, if_neg hk, lookupKey]
      by_cases hkk : k' = k
      · simp [hkk, lookupKey]
      · simp [hkk, lookupKey, ih]

theorem reach_insertPath_self (p : List String) (m : FolderMap) :
    (m.insertPath p).reach p = true := by
  induction p generalizing m with
  | nil => simp [FolderMap.reach]
  | cons name rest ih =>
    obtain ⟨cs⟩ := m
    simp only [FolderMap.insertPath, FolderMap.reach, lookupKey_setKey_self]
    exact ih _

theorem reach_insertPath_mono (q p : List String) (m : FolderMap)
    (h : m.reach q = true) : (m.insertPath p).reach q = true := by
  induction q generalizing m p with
  | nil => simp [FolderMap.reach]
  | cons a qrest ih =>
    obtain ⟨cs⟩ := m
    cases p with
    | nil => exact h
    | cons b prest =>
      simp only [FolderMap.reach] at h
      rcases hl : lookupKey cs a with _ | sub
      · rw [hl] at h
        cases h
      · rw [hl] at h
        by_cases hab : a = b
        · subst hab
          simp only [FolderMap.insertPath, FolderMap.reach, lookupKey_setKey_self, hl]
          exact ih _ _ h
        · simp only [FolderMap.insertPath, FolderMap.reach,
            lookupKey_setKey_ne _ _ hab, hl]
          exact h

theorem reach_set_folder_map_aux (paths : List (List String)) (m : FolderMap) :
    (∀ fp ∈ paths, (paths.foldl (fun m p => m.insertPath p) m).reach fp = true) ∧
    (∀ q, m.reach q = true → (paths.foldl (fun m p => m.insertPath p) m).reach q = true) := by
  induction paths generalizing m with
  | nil => exact ⟨fun fp h => absurd h (List.not_mem_nil fp), fun q h => h⟩
  | cons p ps ih =>
    refine ⟨fun fp hfp => ?_, fun q hq => ?_⟩
    · rcases List.mem_cons.mp hfp with h | h
      · subst h
        exact (ih (m.insertPath fp)).2 fp (reach_insertPath_self fp m)
      · exact (ih (m.insertPath p)).1 fp h
    · exact (ih (m.insertPath p)).2 q (reach_insertPath_mono q p m hq)

/-- Every inserted path is reachable in the built folder map. -/
theorem reach_set_folder_map (paths : List (List String)) (fp : List String)
    (h : fp ∈ paths) : (set_folder_map paths).reach fp = true :=
  (reach_set_folder_map_aux paths (.node [])).1 fp h

/-! ### `/`-join and split -/
theorem splitChars_no_slash (x : List Char) (h : ∀ c ∈ x, c ≠ '/') :
    splitChars x = [x] := by
  induction x with
  | nil => rfl
  | cons c x ih =>
    simp only [splitChars, if_neg (h c (by simp))]
    rw [ih fun d hd => h d (by simp [hd])]

theorem splitChars_append_slash (x t : List Char) (h : ∀ c ∈ x, c ≠ '/') :
    splitChars (x ++ '/' :: t) = x :: splitChars t := by
  induction x with
  | nil => simp [splitChars]
  | cons c x ih =>
    simp only [List.cons_append, splitChars, if_neg (h c (by simp))]
    rw [List.append_eq, ih fun d hd => h d (by simp [hd])]

theorem no_slash_of_slashFree {s : String} (h : slashFree s = true) :
    ∀ c ∈ s.toList, c ≠ '/' := by
  intro c hc he
  subst he
  simp [slashFree] at h
  exact h hc

/-- Splitting a `/`-joined path of slash-free segments recovers the
segments. -/
theorem splitSlash_joinPath (fp : List String) (hne : fp ≠ [])
    (h : ∀ s ∈ fp, slashFree s = true) : splitSlash (joinPath fp) = fp := by
  unfold splitSlash joinPath
  rw [show (String.mk (joinChars (fp.map String.toList))).toList =
    joinChars (fp.map String.toList) from rfl]
  have haux : ∀ (l : List String), l ≠ [] → (∀ s ∈ l, slashFree s = true) →
      splitChars (joinChars (l.map String.toList)) = l.map String.toList := by
    intro l
    induction l with
    | nil => intro h1 _; exact absurd rfl h1
    | cons x xs ih =>
      intro _ hsf
      cases xs with
      | nil =>
        simp only [List.map_cons, List.map_nil, joinChars]
        exact splitChars_no_slash _ (no_slash_of_slashFree (hsf x (by simp)))
      | cons y ys =>
        simp only [List.map_cons, joinChars]
        rw [splitChars_append_slash _ _ (no_slash_of_slashFree (hsf x (by simp)))]
        have := ih (by simp) fun s hs => hsf s (by simp [hs])
        simp only [List.map_cons] at this
        rw [this]
    -- close the joinChars cons-cons shape
  rw [haux fp hne h]
  rw [List.map_map]
  have : (String.mk ∘ String.toList) = id := by
    funext s
    exact string_mk_toList s
  rw [this, List.map_id]

theorem mem_keys_setKey {α : Type} (l : List (String × α)) (k0 : String) (v : α) (k : String)
    (h : k ∈ (setKey l k0 v).map Prod.fst) : k ∈ l.map Prod.fst ∨ k = k0 := by
  induction l with
  | nil =>
    simp only [setKey, List.map_cons, List.map_nil, List.mem_cons,
      List.not_mem_nil, or_false] at h
    exact Or.inr h
  | cons p rest ih =>
    obtain ⟨k', v'⟩ := p
    simp only [setKey] at h
    by_cases hk : k' = k0
    · rw [if_pos hk, List.map_cons] at h
      rcases List.mem_cons.mp h with h | h
      · exact Or.inr h
      · exact Or.inl (by rw [List.map_cons]; exact List.mem_cons_of_mem _ h)
    · rw [if_neg hk, List.map_cons] at h
      rcases List.mem_cons.mp h with h | h
      · exact Or.inl (by rw [List.map_cons, h]; exact List.mem_cons_self _ _)
      · rcases ih h with h2 | h2
        · exact Or.inl (by rw [List.map_cons]; exact List.mem_cons_of_mem _ h2)
        · exact Or.inr h2

theorem processPerfJson_keys (key : String) :
    ∀ (fs : List (String × String)) (s m s' m' : List (String × Json)),
    processPerfJson key fs s m = some (s', m') →
    (∀ k, k ∈ s'.map Prod.fst → k ∈ s.map Prod.fst ∨ k = key) ∧
    (∀ k, k ∈ m'.map Prod.fst → k ∈ m.map Prod.fst ∨ k = key) := by
  intro fs
  induction fs with
  | nil =>
    intro s m s' m' h
    simp only [processPerfJson, Option.some.injEq, Prod.mk.injEq] at h
    exact ⟨fun k hk => Or.inl (h.1 ▸ hk), fun k hk => Or.inl (h.2 ▸ hk)⟩
  | cons f rest ih =>
    intro s m s' m' h
    obtain ⟨name, content⟩ := f
    simp only [processPerfJson] at h
    by_cases hsil : is_silicon_file name = true
    · rw [if_pos hsil] at h
      rcases hld : json_loads content.toList with _ | d
      · rw [hld] at h; cases h
      · simp only [hld] at h
        have := ih _ _ _ _ h
        refine ⟨fun k hk => ?_, this.2⟩
        rcases this.1 k hk with h2 | h2
        · rcases mem_keys_setKey _ _ _ _ h2 with h3 | h3
          · exact Or.inl h3
          · exact Or.inr h3
        · exact Or.inr h2
    · rw [if_neg hsil] at h
      by_cases hmod : is_model_file name = true
      · rw [if_pos hmod] at h
        rcases hld : json_loads content.toList with _ | d
        · rw [hld] at h; cases h
        · simp only [hld] at h
          by_cases ht : d.truthy = true
          · rw [if_pos ht] at h
            have := ih _ _ _ _ h
            refine ⟨this.1, fun k hk => ?_⟩
            rcases this.2 k hk with h2 | h2
            · rcases mem_keys_setKey _ _ _ _ h2 with h3 | h3
              · exact Or.inl h3
              · exact Or.inr h3
            · exact Or.inr h2
          · rw [if_neg ht] at h
            exact ih _ _ _ _ h
      · rw [if_neg hmod] at h
        exact ih _ _ _ _ h

theorem processPerfJsonSingle_keys (key : String) :
    ∀ (fs : List (String × String)) (s m s' m' : List (String × Json)),
    processPerfJsonSingle key fs s m = some (s', m') →
    (∀ k, k ∈ s'.map Prod.fst → k ∈ s.map Prod.fst ∨ k = key) ∧
    (∀ k, k ∈ m'.map Prod.fst → k ∈ m.map Prod.fst ∨ k = key) := by
  intro fs
  induction fs with
  | nil =>
    intro s m s' m' h
    simp only [processPerfJsonSingle, Option.some.injEq, Prod.mk.injEq] at h
    exact ⟨fun k hk => Or.inl (h.1 ▸ hk), fun k hk => Or.inl (h.2 ▸ hk)⟩
  | cons f rest ih =>
    intro s m s' m' h
    obtain ⟨name, content⟩ := f
    simp only [processPerfJsonSingle] at h
    by_cases hsil : is_silicon_file name = true
    · rw [if_pos hsil] at h
      rcases hld : json_loads content.toList with _ | d
      · rw [hld] at h; cases h
      · simp only [hld] at h
        by_cases ht : d.truthy = true
        · rw [if_pos ht] at h
          have := ih _ _ _ _ h
          refine ⟨fun k hk => ?_, this.2⟩
          rcases this.1 k hk with h2 | h2
          · rcases mem_keys_setKey _ _ _ _ h2 with h3 | h3
            · exact Or.inl h3
            · exact Or.inr h3
          · exact Or.inr h2
        · rw [if_neg ht] at h
          exact ih _ _ _ _ h
    · rw [if_neg hsil] at h
      by_cases hmod : is_model_file name = true
      · rw [if_pos hmod] at h
        rcases hld : json_loads content.toList with _ | d
        · rw [hld] at h; cases h
        · simp only [hld] at h
          by_cases ht : d.truthy = true
          · rw [if_pos ht] at h
            have := ih _ _ _ _ h
            refine ⟨this.1, fun k hk => ?_⟩
            rcases this.2 k hk with h2 | h2
            · rcases mem_keys_setKey _ _ _ _ h2 with h3 | h3
              · exact Or.inl h3
              · exact Or.inr h3
            · exact Or.inr h2
          · rw [if_neg ht] at h
            exact ih _ _ _ _ h
      · rw [if_neg hmod] at h
        exact ih _ _ _ _ h

theorem processGraphDumps_keys (key : String) :
    ∀ (gs : List (String × String)) (g : List (String × String)) (k : String),
    k ∈ (processGraphDumps key gs g).map Prod.fst → k ∈ g.map Prod.fst ∨ k = key := by
  intro gs
  induction gs with
  | nil => intro g k hk; exact Or.inl hk
  | cons f rest ih =>
    intro g k hk
    have h2 := ih (setKey g key f.2) k (by simpa [processGraphDumps] using hk)
    rcases h2 with h2 | h2
    · rcases mem_keys_setKey _ _ _ _ h2 with h3 | h3
      · exact Or.inl h3
      · exact Or.inr h3
    · exact Or.inr h2

theorem processPath_keys (rootEs : List Entry) (acc : PerfData) (fp : List String)
    (acc' : PerfData) (h : processPath rootEs acc fp = some acc') :
    ∀ k, k ∈ keysIn acc' → k ∈ keysIn acc ∨ k = joinPath fp := by
  unfold processPath at h
  rcases hnav : navigate rootEs fp with _ | es
  · rw [hnav] at h; cases h
  · simp only [hnav] at h
    rcases hlast : fp.getLast? with _ | last
    · rw [hlast] at h; cases h
    · simp only [hlast] at h
      by_cases hhost : last = "host"
      · rw [if_pos hhost] at h
        rcases hph : processHostFiles (find_host_json_files es) [] with _ | jd
        · rw [hph] at h; cases h
        · rw [hph] at h
          simp only [Option.map_some', Option.some.injEq] at h
          subst h
          by_cases hje : jd.isEmpty = true
          · rw [if_pos hje]
            exact fun k hk => Or.inl hk
          · rw [if_neg hje]
            intro k hk
            simp only [keysIn, List.mem_append] at hk ⊢
            rcases hk with ((hk | hk) | hk) | hk
            · exact Or.inl (Or.inl (Or.inl (Or.inl hk)))
            · exact Or.inl (Or.inl (Or.inl (Or.inr hk)))
            · exact Or.inl (Or.inl (Or.inr hk))
            · rcases mem_keys_setKey _ _ _ _ hk with h3 | h3
              · exact Or.inl (Or.inr h3)
              · exact Or.inr h3
      · rw [if_neg hhost] at h
        rcases hpj : processPerfJson (joinPath fp) (find_perf_json_files es) acc.silicon
            acc.model with _ | sm
        · rw [hpj] at h; cases h
        · rw [hpj] at h
          simp only [Option.map_some', Option.some.injEq] at h
          subst h
          intro k hk
          simp only [keysIn, List.mem_append] at hk ⊢
          obtain ⟨hks, hkm⟩ := processPerfJson_keys (joinPath fp) _ _ _ _ _ hpj
          rcases hk with ((hk | hk) | hk) | hk
          · rcases hks k hk with h3 | h3
            · exact Or.inl (Or.inl (Or.inl (Or.inl h3)))
            · exact Or.inr h3
          · rcases hkm k hk with h3 | h3
            · exact Or.inl (Or.inl (Or.inl (Or.inr h3)))
            · exact Or.inr h3
          · rcases processGraphDumps_keys _ _ _ _ hk with h3 | h3
            · exact Or.inl (Or.inl (Or.inr h3))
            · exact Or.inr h3
          · exact Or.inl (Or.inr hk)

theorem collect_keys (rootEs : List Entry) :
    ∀ (paths : List (List String)) (acc pd : PerfData),
    List.foldlM (processPath rootEs) acc paths = some pd →
    ∀ k, k ∈ keysIn pd → k ∈ keysIn acc ∨ ∃ fp ∈ paths, k = joinPath fp := by
  intro paths
  induction paths with
  | nil =>
    intro acc pd h k hk
    simp only [List.foldlM_nil, pure, Option.some.injEq] at h
    subst h
    exact Or.inl hk
  | cons p ps ih =>
    intro acc pd h k hk
    rw [List.foldlM_cons] at h
    rcases hp : processPath rootEs acc p with _ | acc1
    · rw [hp] at h; cases h
    · rw [hp] at h
      simp only [Option.bind_eq_bind, Option.some_bind] at h
      rcases ih acc1 pd h k hk with h2 | ⟨fp, hfp, hk2⟩
      · rcases processPath_keys rootEs acc p acc1 hp k h2 with h3 | h3
        · exact Or.inl h3
        · exact Or.inr ⟨p, List.mem_cons_self p ps, h3⟩
      · exact Or.inr ⟨fp, List.mem_cons_of_mem p hfp, hk2⟩

theorem foldlM_option_success {β γ : Type} (f : β → γ → Option β) :
    ∀ (l : List γ) (b r : β), List.foldlM f b l = some r →
    ∀ x ∈ l, ∃ b1 b2, f b1 x = some b2 := by
  intro l
  induction l with
  | nil => intro b r _ x hx; cases hx
  | cons a rest ih =>
    intro b r h x hx
    rw [List.foldlM_cons] at h
    rcases ha : f b a with _ | b1
    · rw [ha] at h; cases h
    · rw [ha] at h
      simp only [Option.bind_eq_bind, Option.some_bind] at h
      rcases hx with _ | hx
      · exact ⟨b, b1, ha⟩
      · exact ih b1 r h x (by assumption)

theorem processPath_nil (rootEs : List Entry) (acc : PerfData) :
    processPath rootEs acc [] = none := rfl

theorem wfEntries_cons_head {e : Entry} {rest : List Entry}
    (h : wfEntries (e :: rest) = true) : slashFree (entryName e) = true := by
  cases e with
  | file n c =>
    simp only [wfEntries, Bool.and_eq_true] at h
    exact h.1.1.1
  | dir n sub =>
    simp only [wfEntries, Bool.and_eq_true] at h
    exact h.1.1.1

theorem wfEntries_cons_rest {e : Entry} {rest : List Entry}
    (h : wfEntries (e :: rest) = true) : wfEntries rest = true := by
  cases e with
  | file n c =>
    simp only [wfEntries, Bool.and_eq_true] at h
    exact h.2
  | dir n sub =>
    simp only [wfEntries, Bool.and_eq_true] at h
    exact h.2

theorem wfEntries_dir_sub {n : String} {sub rest : List Entry}
    (h : wfEntries (Entry.dir n sub :: rest) = true) : wfEntries sub = true := by
  simp only [wfEntries, Bool.and_eq_true] at h
  exact h.1.2

theorem siliconLeafPaths_shape (es : List Entry) (ps : List (List String))
    (h : siliconLeafPaths es = some ps) : ∀ p ∈ ps, p = [] := by
  unfold siliconLeafPaths at h
  rcases hsf : siliconFiles es with _ | ⟨f, fs⟩
  · simp only [hsf, Option.some.injEq] at h
    subst h
    intro p hp; cases hp
  · rcases fs with _ | ⟨g, gs⟩
    · simp only [hsf] at h
      rcases hld : json_loads f.2.toList with _ | d
      · rw [hld] at h; cases h
      · simp only [hld] at h
        by_cases ht : d.truthy = true
        · rw [if_pos ht] at h
          obtain rfl := Option.some.inj h
          intro p hp
          simp only [List.mem_singleton] at hp
          exact hp
        · rw [if_neg ht] at h
          obtain rfl := Option.some.inj h
          intro p hp; cases hp
    · simp only [hsf, Option.some.injEq] at h
      subst h
      intro p hp; cases hp

theorem extract_segments_slashFree :
    ∀ (es : List Entry), wfEntries es = true →
    ∀ ps, extractChildren es = some ps →
    ∀ fp ∈ ps, ∀ seg ∈ fp, slashFree seg = true := by
  intro es
  induction es using extractChildren.induct with
  | case1 =>
    intro _ ps hps fp hfp
    simp only [extractChildren, Option.some.injEq] at hps
    subst hps
    cases hfp
  | case2 name content rest ih =>
    intro hwf ps hps
    simp only [extractChildren] at hps
    exact ih (wfEntries_cons_rest hwf) ps hps
  | case3 n es rest ihes ihrest =>
    intro hwf ps hps
    have hwfrest := wfEntries_cons_rest hwf
    simp only [extractChildren] at hps
    rcases hd : (if n = "host" then
        (if (find_host_json_files es).isEmpty then some [] else some [[]])
      else if hasSubdir es then extractChildren es
      else siliconLeafPaths es) with _ | ps1
    · rw [hd] at hps; cases hps
    · simp only [hd] at hps
      rcases hr : extractChildren rest with _ | ps2
      · rw [hr] at hps; cases hps
      · simp only [hr, Option.some_bind, Option.map_some', Option.some.injEq] at hps
        subst hps
        intro fp hfp seg hseg
        rcases List.mem_append.mp hfp with hfp | hfp
        · obtain ⟨fp', hfp', rfl⟩ := List.mem_map.mp hfp
          rcases List.mem_cons.mp hseg with rfl | hseg2
          · exact wfEntries_cons_head hwf
          · by_cases hh : n = "host"
            · rw [if_pos hh] at hd
              have hfpnil : fp' = [] := by
                by_cases hhe : (find_host_json_files es).isEmpty = true
                · rw [if_pos hhe] at hd
                  obtain rfl := Option.some.inj hd
                  cases hfp'
                · rw [if_neg hhe] at hd
                  obtain rfl := Option.some.inj hd
                  simpa using hfp'
              subst hfpnil
              cases hseg2
            · rw [if_neg hh] at hd
              by_cases hsub : hasSubdir es = true
              · rw [if_pos hsub] at hd
                exact ihes (wfEntries_dir_sub hwf) ps1 hd fp' hfp' seg hseg2
              · rw [if_neg hsub] at hd
                have hfpnil := siliconLeafPaths_shape es ps1 hd fp' hfp'
                subst hfpnil
                cases hseg2
        · exact ihrest hwfrest ps2 hr fp hfp seg hseg

theorem hasSubdir_of_subfolders (es : List Entry)
    (h : (get_subfolders es).isEmpty = false) : hasSubdir es = true := by
  induction es with
  | nil => simp [get_subfolders] at h
  | cons e rest ih =>
    cases e with
    | file n c =>
      have h2 : (get_subfolders rest).isEmpty = false := by
        simpa [get_subfolders, List.filterMap_cons] using h
      simpa only [hasSubdir, List.any_cons, Bool.false_or] using ih h2
    | dir n sub => simp [hasSubdir, List.any_cons]

theorem assemble_keys (fm : FolderMap) (pd : PerfData) (k : String)
    (h : k ∈ ((assemble fm pd).silicon.getD []).map Prod.fst ∨
         k ∈ ((assemble fm pd).model.getD []).map Prod.fst ∨
         k ∈ ((assemble fm pd).graph.getD []).map Prod.fst ∨
         k ∈ ((assemble fm pd).host.getD []).map Prod.fst) :
    k ∈ keysIn pd := by
  simp only [keysIn, List.mem_append]
  by_cases hc : fm.childrenOf.isEmpty = true
  · simp [assemble, hc, emptyDoc] at h
  · rcases h with h | h | h | h
    · by_cases hs : pd.silicon.isEmpty = true
      · simp [assemble, hc, hs] at h
      · simp only [assemble, if_neg hc, if_neg hs, Option.getD_some] at h
        exact Or.inl (Or.inl (Or.inl h))
    · by_cases hs : pd.silicon.isEmpty = true
      · simp [assemble, hc, hs] at h
      · by_cases hm : pd.model.isEmpty = true
        · simp [assemble, hc, hs, hm] at h
        · simp only [assemble, if_neg hc, if_neg hs, if_neg hm, Option.getD_some] at h
          exact Or.inl (Or.inl (Or.inr h))
    · by_cases hs : pd.silicon.isEmpty = true
      · simp [assemble, hc, hs] at h
      · by_cases hg : pd.graph.isEmpty = true
        · simp [assemble, hc, hs, hg] at h
        · simp only [assemble, if_neg hc, if_neg hs, if_neg hg, Option.getD_some] at h
          exact Or.inl (Or.inr h)
    · by_cases hh : pd.host.isEmpty = true
      · simp [assemble, hc, hh] at h
      · simp only [assemble, if_neg hc, if_neg hh, Option.getD_some] at h
        exact Or.inr h

/-- C5: for every document the aggregator emits — in single-directory and in
tree mode — every key of the emitted `silicon`, `model`, `graph` and `host`
mappings, split on `/`, is a path reachable from the root of the emitted
`folderMap` tree (directory listings are wellformed: sibling names distinct
and slash-free). -/
theorem claim_C5_folder_map_complete (rootName : String) (es : List Entry)
    (doc : PerfDoc) (fm : FolderMap) (key : String)
    (hwf : wfEntries es = true) (hroot : slashFree rootName = true)
    (hdoc : PerfDumpData_init rootName es = some doc)
    (hfm : doc.folderMap = some fm)
    (hkey : key ∈ (doc.silicon.getD []).map Prod.fst ∨
            key ∈ (doc.model.getD []).map Prod.fst ∨
            key ∈ (doc.graph.getD []).map Prod.fst ∨
            key ∈ (doc.host.getD []).map Prod.fst) :
    fm.reach (splitSlash key) = true := by
  unfold PerfDumpData_init at hdoc
  by_cases hmode : (get_subfolders es).isEmpty = true
  · rw [if_pos hmode] at hdoc
    by_cases hfound : es.any (fun e =>
        match e with
        | .file n _ => is_silicon_file n
        | .dir n _ => is_silicon_file n) = true
    · rw [if_pos hfound] at hdoc
      unfold get_perf_dump_data_single_dir at hdoc
      rcases hsm : processPerfJsonSingle rootName (find_perf_json_files es) [] []
        with _ | sm
      · rw [hsm] at hdoc; cases hdoc
      · rw [hsm] at hdoc
        simp only [Option.map_some', Option.some.injEq] at hdoc
        subst hdoc
        have hk2 := assemble_keys _ _ key hkey
        have hkeyroot : key = rootName := by
          simp only [keysIn, List.mem_append] at hk2
          obtain ⟨hks, hkm⟩ := processPerfJsonSingle_keys rootName _ _ _ _ _ hsm
          rcases hk2 with ((h | h) | h) | h
          · rcases hks key h with h2 | h2
            · simp at h2
            · exact h2
          · rcases hkm key h with h2 | h2
            · simp at h2
            · exact h2
          · rcases processGraphDumps_keys rootName _ _ _ h with h2 | h2
            · simp at h2
            · exact h2
          · simp at h
        subst hkeyroot
        have hfm2 : fm = FolderMap.node [(key, .node [])] := by
          simp only [assemble] at hfm
          rw [if_neg (by simp [FolderMap.childrenOf])] at hfm
          exact (Option.some.inj hfm).symm
        have hsplit : splitSlash key = [key] := by
          unfold splitSlash
          rw [splitChars_no_slash _ (no_slash_of_slashFree hroot)]
          simp [string_mk_toList]
        rw [hfm2, hsplit]
        simp [FolderMap.reach, lookupKey]
    · rw [if_neg hfound] at hdoc
      obtain rfl := Option.some.inj hdoc
      simp [emptyDoc] at hfm
  · rw [if_neg hmode] at hdoc
    rcases hpaths : get_all_folder_paths rootName es with _ | paths
    · rw [hpaths] at hdoc; cases hdoc
    · simp only [hpaths, Option.some_bind] at hdoc
      unfold get_perf_dump_data at hdoc
      rcases hpd : collectPerfData es paths with _ | pd
      · rw [hpd] at hdoc; cases hdoc
      · rw [hpd] at hdoc
        simp only [Option.map_some', Option.some.injEq] at hdoc
        subst hdoc
        have hk2 := assemble_keys _ _ key hkey
        rcases collect_keys es paths ⟨[], [], [], []⟩ pd hpd key hk2 with h2 |
          ⟨fp, hfp, hk3⟩
        · simp [keysIn] at h2
        · have hfpne : fp ≠ [] := by
            obtain ⟨b1, b2, hb⟩ := foldlM_option_success _ paths _ pd hpd fp hfp
            intro hn
            subst hn
            rw [processPath_nil] at hb
            cases hb
          have hfm2 : fm = set_folder_map paths := by
            simp only [assemble] at hfm
            by_cases hc : (set_folder_map paths).childrenOf.isEmpty = true
            · rw [if_pos hc] at hfm
              simp [emptyDoc] at hfm
            · rw [if_neg hc] at hfm
              exact (Option.some.inj hfm).symm
          have hsegs : ∀ seg ∈ fp, slashFree seg = true := by
            unfold get_all_folder_paths extractDir at hpaths
            by_cases hh : rootName = "host"
            · rw [if_pos hh] at hpaths
              by_cases hhe : (find_host_json_files es).isEmpty = true
              · rw [if_pos hhe] at hpaths
                obtain rfl := Option.some.inj hpaths
                cases hfp
              · rw [if_neg hhe] at hpaths
                obtain rfl := Option.some.inj hpaths
                simp only [List.mem_singleton] at hfp
                exact absurd hfp hfpne
            · rw [if_neg hh,
                if_pos (hasSubdir_of_subfolders es (by simpa using hmode))] at hpaths
              exact extract_segments_slashFree es hwf paths hpaths fp hfp
          rw [hfm2, hk3, splitSlash_joinPath fp hfpne hsegs]
          exact reach_set_folder_map paths fp hfp

theorem claim_C5_witness :
    wfEntries c5es = true ∧ slashFree "root" = true ∧
    PerfDumpData_init "root" c5es = some c5doc ∧
    c5doc.folderMap = some c5fm ∧
    "root" ∈ (c5doc.silicon.getD []).map Prod.fst ∧
    c5fm.reach (splitSlash "root") = true := by
  have h1 : wfEntries c5es = true := by
    simp only [c5es, wfEntries, entryName]
    decide
  exact ⟨h1, rfl, rfl, rfl, by simp [c5doc],
    claim_C5_folder_map_complete "root" c5es c5doc c5fm "root" h1 rfl rfl rfl
      (Or.inl (by simp [c5doc]))⟩

/-! ### C7: host proc-id injection and the merge -/
theorem setKey_mem {α : Type} (l : List (String × α)) (k0 : String) (v0 : α)
    (k : String) (v : α) (h : (k, v) ∈ setKey l k0 v0) :
    (k, v) ∈ l ∨ (k = k0 ∧ v = v0) := by
  induction l with
  | nil =>
    simp only [setKey, List.mem_singleton, Prod.mk.injEq] at h
    exact Or.inr h
  | cons p rest ih =>
    obtain ⟨k', v'⟩ := p
    simp only [setKey] at h
    by_cases hk : k' = k0
    · rw [if_pos hk] at h
      rcases List.mem_cons.mp h with h | h
      · exact Or.inr (by simpa [Prod.ext_iff] using h)
      · exact Or.inl (List.mem_cons_of_mem _ h)
    · rw [if_neg hk] at h
      rcases List.mem_cons.mp h with h | h
      · exact Or.inl (h ▸ List.mem_cons_self _ _)
      · rcases ih h with h2 | h2
        · exact Or.inl (List.mem_cons_of_mem _ h2)
        · exact Or.inr h2

theorem dictUpdate_mem {α : Type} (upd : List (String × α)) :
    ∀ (base : List (String × α)) (k : String) (v : α),
    (k, v) ∈ dictUpdate base upd → (k, v) ∈ base ∨ (k, v) ∈ upd := by
  induction upd with
  | nil => intro base k v h; exact Or.inl h
  | cons p rest ih =>
    intro base k v h
    rcases ih (setKey base p.1 p.2) k v h with h2 | h2
    · rcases setKey_mem _ _ _ _ _ h2 with h3 | h3
      · exact Or.inl h3
      · exact Or.inr (by
          rcases h3 with ⟨rfl, rfl⟩
          exact List.mem_cons_self _ _)
    · exact Or.inr (List.mem_cons_of_mem _ h2)

theorem injectAll_mem (pid : String) :
    ∀ (ms ms' : List (String × Json)), injectAll pid ms = some ms' →
    ∀ k v, (k, v) ∈ ms' → ∃ v0, (k, v0) ∈ ms ∧ injectPid pid v0 = some v := by
  intro ms
  induction ms with
  | nil =>
    intro ms' h k v hv
    simp only [injectAll, Option.some.injEq] at h
    subst h
    cases hv
  | cons p rest ih =>
    intro ms' h k v hv
    obtain ⟨k1, v1⟩ := p
    simp only [injectAll] at h
    rcases hp : injectPid pid v1 with _ | w
    · rw [hp] at h; cases h
    · simp only [hp, Option.some_bind] at h
      rcases hr : injectAll pid rest with _ | rest'
      · rw [hr] at h; cases h
      · simp only [hr, Option.map_some', Option.some.injEq] at h
        subst h
        rcases List.mem_cons.mp hv with h2 | h2
        · obtain ⟨rfl, rfl⟩ := Prod.mk.injEq .. |>.mp h2
          exact ⟨v1, List.mem_cons_self _ _, hp⟩
        · obtain ⟨v0, hv0, hinj⟩ := ih rest' hr k v h2
          exact ⟨v0, List.mem_cons_of_mem _ hv0, hinj⟩

theorem processHostFiles_pid :
    ∀ (files : List (String × String)) (acc merged : List (String × Json)),
    processHostFiles files acc = some merged →
    ∀ k v, (k, v) ∈ merged →
    (k, v) ∈ acc ∨ ∃ name content pid ms0 v0,
      (name, content) ∈ files ∧ procId_of name = some pid ∧
      json_loads content.toList = some (.obj ms0) ∧ (k, v0) ∈ ms0 ∧
      injectPid pid v0 = some v := by
  intro files
  induction files with
  | nil =>
    intro acc merged h k v hv
    simp only [processHostFiles, Option.some.injEq] at h
    subst h
    exact Or.inl hv
  | cons f rest ih =>
    intro acc merged h k v hv
    obtain ⟨name, content⟩ := f
    simp only [processHostFiles] at h
    rcases hld : json_loads content.toList with _ | d
    · rw [hld] at h; cases h
    · simp only [hld] at h
      by_cases ht : d.truthy = true
      · rw [if_pos ht] at h
        cases d with
        | obj ms =>
          rcases hpid : procId_of name with _ | pid
          · rw [hpid] at h; cases h
          · simp only [hpid, Option.some_bind] at h
            rcases hinj : injectAll pid ms with _ | ms'
            · rw [hinj] at h; cases h
            · simp only [hinj, Option.some_bind] at h
              rcases ih _ _ h k v hv with h2 | ⟨n2, c2, p2, m2, v2, hmem, hrest⟩
              · rcases dictUpdate_mem _ _ _ _ h2 with h3 | h3
                · exact Or.inl h3
                · obtain ⟨v0, hv0, hinj0⟩ := injectAll_mem pid ms ms' hinj k v h3
                  exact Or.inr ⟨name, content, pid, ms, v0,
                    List.mem_cons_self _ _, hpid, hld, hv0, hinj0⟩
              · exact Or.inr ⟨n2, c2, p2, m2, v2,
                  List.mem_cons_of_mem _ hmem, hrest⟩
        | null => rw [show Json.truthy .null = false from rfl] at ht; cases ht
        | bool b => cases h
        | num n => cases h
        | str s => cases h
        | arr elems => cases h
      · rw [if_neg ht] at h
        rcases ih _ _ h k v hv with h2 | ⟨n2, c2, p2, m2, v2, hmem, hrest⟩
        · exact Or.inl h2
        · exact Or.inr ⟨n2, c2, p2, m2, v2, List.mem_cons_of_mem _ hmem, hrest⟩

/-- C7 counterexample: two host files (proc ids 1 and 2) both holding an event
named `e`; the merge overwrites the first file's non-empty record, so that
record never appears in the merged host mapping with `process-id` `"1"` — only
the second file's record, with `process-id` `"2"`, survives. -/
theorem claim_C7_counterexample :
    processHostFiles
      [("a_proc_1.json", String.mk (json_dumps (.obj [("e", .obj [("x", .str "1")])]))),
       ("b_proc_2.json", String.mk (json_dumps (.obj [("e", .obj [("y", .str "2")])])))]
      [] =
    some [("e", .obj [("y", .str "2"), ("process-id", .str "2")])] := rfl

/-- C7 (amended): every record of the merged host mapping originates from one
host-data file whose name captured a numeric proc id; a non-empty record is
that file's loaded event record with `process-id` set to that file's captured
digit string, and an empty record is left without a `process-id` field. -/
theorem claim_C7_host_pid (files : List (String × String))
    (merged : List (String × Json)) (k : String) (v : Json)
    (h : processHostFiles files [] = some merged) (hkv : (k, v) ∈ merged) :
    (v.truthy = true →
      ∃ name content pid ms0 v0, (name, content) ∈ files ∧
        procId_of name = some pid ∧ json_loads content.toList = some (.obj ms0) ∧
        (k, v0) ∈ ms0 ∧ injectPid pid v0 = some v ∧
        ∃ ms, v = .obj ms ∧ lookupKey ms "process-id" = some (.str pid)) ∧
    (v.truthy = false → ∀ ms, v = .obj ms → lookupKey ms "process-id" = none) := by
  constructor
  · intro ht
    rcases processHostFiles_pid files [] merged h k v hkv with h2 |
      ⟨name, content, pid, ms0, v0, hmem, hpid, hld, hv0, hinj⟩
    · cases h2
    · refine ⟨name, content, pid, ms0, v0, hmem, hpid, hld, hv0, hinj, ?_⟩
      unfold injectPid at hinj
      by_cases ht0 : v0.truthy = true
      · rw [if_pos ht0] at hinj
        cases v0 with
        | obj ms1 =>
          obtain rfl := Option.some.inj hinj
          exact ⟨_, rfl, lookupKey_setKey_self _ _ _⟩
        | null => rw [show Json.truthy .null = false from rfl] at ht0; cases ht0
        | bool b => cases hinj
        | num n => cases hinj
        | str s => cases hinj
        | arr elems => cases hinj
      · rw [if_neg ht0] at hinj
        obtain rfl := Option.some.inj hinj
        rw [ht] at ht0
        exact absurd rfl ht0
  · intro ht ms hms
    subst hms
    have hemp : ms.isEmpty = true := by simpa [Json.truthy] using ht
    rw [List.isEmpty_iff] at hemp
    subst hemp
    rfl

theorem claim_C7_witness :
    processHostFiles c7files [] = some c7merged ∧ ("e1", c7v) ∈ c7merged ∧
    ((c7v.truthy = true →
      ∃ name content pid ms0 v0, (name, content) ∈ c7files ∧
        procId_of name = some pid ∧ json_loads content.toList = some (.obj ms0) ∧
        ("e1", v0) ∈ ms0 ∧ injectPid pid v0 = some c7v ∧
        ∃ ms, c7v = .obj ms ∧ lookupKey ms "process-id" = some (.str pid)) ∧
     (c7v.truthy = false → ∀ ms, c7v = .obj ms → lookupKey ms "process-id" = none)) :=
  ⟨rfl, by simp [c7merged],
   claim_C7_host_pid c7files c7merged "e1" c7v rfl (by simp [c7merged])⟩

/-! ### C8: which directories are discovered as leaf result paths -/
theorem siliconLeafPaths_cases (es : List Entry) (ps : List (List String))
    (h : siliconLeafPaths es = some ps) : ps = [] ∨ ps = [[]] := by
  unfold siliconLeafPaths at h
  rcases hsf : siliconFiles es with _ | ⟨f, fs⟩
  · simp only [hsf, Option.some.injEq] at h
    exact Or.inl h.symm
  · rcases fs with _ | ⟨g, gs⟩
    · simp only [hsf] at h
      rcases hld : json_loads f.2.toList with _ | d
      · rw [hld] at h; cases h
      · simp only [hld] at h
        by_cases ht : d.truthy = true
        · rw [if_pos ht] at h
          exact Or.inr (Option.some.inj h).symm
        · rw [if_neg ht] at h
          exact Or.inl (Option.some.inj h).symm
    · simp only [hsf, Option.some.injEq] at h
      exact Or.inl h.symm

theorem siliconLeafPaths_one (es : List Entry) :
    siliconLeafPaths es = some [[]] ↔
    ∃ f, siliconFiles es = [f] ∧
      ∃ d, json_loads f.2.toList = some d ∧ d.truthy = true := by
  unfold siliconLeafPaths
  rcases hsf : siliconFiles es with _ | ⟨f, fs⟩
  · simp
  · rcases fs with _ | ⟨g, gs⟩
    · simp only []
      rcases hld : json_loads f.2.toList with _ | d
      · simp only [hld]
        constructor
        · intro h; cases h
        · rintro ⟨f', hf', d, hd, _⟩
          obtain rfl : f' = f := by simpa using hf'.symm
          rw [hld] at hd; cases hd
      · simp only [hld]
        by_cases ht : d.truthy = true
        · rw [if_pos ht]
          simp only [true_iff]
          exact ⟨f, rfl, d, hld, ht⟩
        · rw [if_neg ht]
          constructor
          · intro h; cases h
          · rintro ⟨f', hf', d', hd', ht'⟩
            obtain rfl : f' = f := by simpa using hf'.symm
            rw [hld] at hd'
            obtain rfl := Option.some.inj hd'
            exact absurd ht' ht
    · simp only []
      constructor
      · intro h; cases h
      · rintro ⟨f', hf', -⟩
        cases hf'

theorem wfEntries_cons_notmem {e : Entry} {rest : List Entry}
    (h : wfEntries (e :: rest) = true) : entryName e ∉ rest.map entryName := by
  cases e with
  | file n c =>
    simp only [wfEntries, Bool.and_eq_true] at h
    simpa [entryName] using h.1.1.2
  | dir n sub =>
    simp only [wfEntries, Bool.and_eq_true] at h
    simpa [entryName] using h.1.1.2

theorem lookupKey_subfolders_mem (es : List Entry) (m : String) (sub : List Entry)
    (h : lookupKey (get_subfolders es) m = some sub) : m ∈ es.map entryName := by
  induction es with
  | nil => cases h
  | cons e rest ih =>
    cases e with
    | file n c =>
      simp only [get_subfolders, List.filterMap_cons] at h
      exact List.mem_cons_of_mem _ (ih (by simpa [get_subfolders] using h))
    | dir n s =>
      simp only [get_subfolders, List.filterMap_cons] at h
      simp only [lookupKey] at h
      by_cases hn : n = m
      · exact hn ▸ List.mem_cons_self _ _
      · rw [if_neg hn] at h
        exact List.mem_cons_of_mem _ (ih (by simpa [get_subfolders] using h))

theorem wfEntries_lookup (es : List Entry) (m : String) (sub : List Entry)
    (hwf : wfEntries es = true)
    (h : lookupKey (get_subfolders es) m = some sub) : wfEntries sub = true := by
  induction es with
  | nil => cases h
  | cons e rest ih =>
    cases e with
    | file n c =>
      simp only [get_subfolders, List.filterMap_cons] at h
      exact ih (wfEntries_cons_rest hwf) (by simpa [get_subfolders] using h)
    | dir n s =>
      simp only [get_subfolders, List.filterMap_cons, lookupKey] at h
      by_cases hn : n = m
      · rw [if_pos hn] at h
        obtain rfl := Option.some.inj h
        exact wfEntries_dir_sub hwf
      · rw [if_neg hn] at h
        exact ih (wfEntries_cons_rest hwf) (by simpa [get_subfolders] using h)

theorem extract_sub_some :
    ∀ (es : List Entry) (ps : List (List String)),
    extractChildren es = some ps →
    ∀ (m : String) (sub : List Entry),
    lookupKey (get_subfolders es) m = some sub →
    ∃ ps1, extractDir m sub = some ps1 := by
  intro es
  induction es using extractChildren.induct with
  | case1 => intro ps _ m sub h; cases h
  | case2 name content rest ih =>
    intro ps hex m sub h
    simp only [extractChildren] at hex
    simp only [get_subfolders, List.filterMap_cons] at h
    exact ih ps hex m sub (by simpa [get_subfolders] using h)
  | case3 n es rest ihes ihrest =>
    intro ps hex m sub h
    simp only [extractChildren] at hex
    rcases hd : (if n = "host" then
        (if (find_host_json_files es).isEmpty then some [] else some [[]])
      else if hasSubdir es then extractChildren es
      else siliconLeafPaths es) with _ | ps1
    · rw [hd] at hex; cases hex
    · simp only [hd, Option.some_bind] at hex
      rcases hr : extractChildren rest with _ | ps2
      · rw [hr] at hex; cases hex
      · simp only [get_subfolders, List.filterMap_cons, lookupKey] at h
        by_cases hn : n = m
        · rw [if_pos hn] at h
          obtain rfl := Option.some.inj h
          subst hn
          exact ⟨ps1, by simpa [extractDir] using hd⟩
        · rw [if_neg hn] at h
          exact ihrest ps2 hr m sub (by simpa [get_subfolders] using h)

theorem extract_mem_aux :
    ∀ (es : List Entry), wfEntries es = true →
    ∀ (ps : List (List String)), extractChildren es = some ps →
    ∀ (m : String) (fp' : List String),
    ((m :: fp') ∈ ps ↔
      ∃ sub ps1, lookupKey (get_subfolders es) m = some sub ∧
        extractDir m sub = some ps1 ∧ fp' ∈ ps1) := by
  intro es
  induction es using extractChildren.induct with
  | case1 =>
    intro _ ps hex m fp'
    simp only [extractChildren, Option.some.injEq] at hex
    subst hex
    simp [get_subfolders, lookupKey]
  | case2 name content rest ih =>
    intro hwf ps hex m fp'
    simp only [extractChildren] at hex
    rw [ih (wfEntries_cons_rest hwf) ps hex m fp']
    simp [get_subfolders, List.filterMap_cons]
  | case3 n es rest ihes ihrest =>
    intro hwf ps hex m fp'
    have hwfrest := wfEntries_cons_rest hwf
    simp only [extractChildren] at hex
    rcases hd : (if n = "host" then
        (if (find_host_json_files es).isEmpty then some [] else some [[]])
      else if hasSubdir es then extractChildren es
      else siliconLeafPaths es) with _ | ps1
    · rw [hd] at hex; cases hex
    · simp only [hd, Option.some_bind] at hex
      rcases hr : extractChildren rest with _ | ps2
      · rw [hr] at hex; cases hex
      · simp only [hr, Option.map_some', Option.some.injEq] at hex
        subst hex
        have hgs : get_subfolders (Entry.dir n es :: rest) =
            (n, es) :: get_subfolders rest := by
          simp [get_subfolders, List.filterMap_cons]
        rw [hgs]
        simp only [lookupKey]
        by_cases hn : n = m
        · subst hn
          rw [if_pos rfl]
          constructor
          · intro hmem
            rcases List.mem_append.mp hmem with hmem | hmem
            · obtain ⟨fp0, hfp0, heq⟩ := List.mem_map.mp hmem
              obtain ⟨-, rfl⟩ : n = n ∧ fp0 = fp' := by
                constructor
                · rfl
                · exact (List.cons.injEq .. |>.mp heq).2
              exact ⟨es, ps1, rfl, hd, hfp0⟩
            · exfalso
              have hm2 := (ihrest hwfrest ps2 hr n fp').mp hmem
              obtain ⟨sub2, ps3, hlk2, -, -⟩ := hm2
              exact wfEntries_cons_notmem hwf
                (lookupKey_subfolders_mem rest n sub2 hlk2)
          · rintro ⟨sub, ps4, hsub, hed, hin⟩
            obtain rfl := Option.some.inj hsub
            have hd2 : extractDir n es = some ps1 := hd
            rw [hd2] at hed
            obtain rfl := Option.some.inj hed
            exact List.mem_append.mpr (Or.inl (List.mem_map.mpr ⟨fp', hin, rfl⟩))
        · rw [if_neg hn]
          rw [← ihrest hwfrest ps2 hr m fp']
          constructor
          · intro hmem
            rcases List.mem_append.mp hmem with hmem | hmem
            · obtain ⟨fp0, -, heq⟩ := List.mem_map.mp hmem
              exact absurd (List.cons.injEq .. |>.mp heq).1 hn
            · exact hmem
          · intro hmem
            exact List.mem_append.mpr (Or.inr hmem)

theorem extract_mem_nav :
    ∀ (q : List String) (es : List Entry), wfEntries es = true →
    ∀ (ps : List (List String)), extractChildren es = some ps →
    ∀ (n : String) (sub : List Entry), navigate es (q ++ [n]) = some sub →
    n ≠ "host" → hasSubdir sub = false →
    ((q ++ [n]) ∈ ps ↔ ("host" ∉ q ∧ siliconLeafPaths sub = some [[]])) := by
  intro q
  induction q with
  | nil =>
    intro es hwf ps hex n sub hnav hn hns
    simp only [List.nil_append] at hnav ⊢
    simp only [navigate] at hnav
    rcases hlk : lookupKey (get_subfolders es) n with _ | es1
    · rw [hlk] at hnav; cases hnav
    · simp only [hlk, navigate] at hnav
      obtain rfl := Option.some.inj hnav
      rw [extract_mem_aux es hwf ps hex n []]
      constructor
      · rintro ⟨sub', ps1, hlk', hed, hin⟩
        rw [hlk] at hlk'
        obtain rfl := Option.some.inj hlk'
        unfold extractDir at hed
        rw [if_neg hn, if_neg (by simp [hns])] at hed
        refine ⟨by simp, ?_⟩
        rcases siliconLeafPaths_cases _ _ hed with rfl | rfl
        · cases hin
        · exact hed
      · rintro ⟨-, hslp⟩
        refine ⟨es1, [[]], hlk, ?_, by simp⟩
        unfold extractDir
        rw [if_neg hn, if_neg (by simp [hns])]
        exact hslp
  | cons m q' ih =>
    intro es hwf ps hex n sub hnav hn hns
    rw [List.cons_append] at hnav
    simp only [navigate] at hnav
    rcases hlk : lookupKey (get_subfolders es) m with _ | es1
    · rw [hlk] at hnav; cases hnav
    · simp only [hlk] at hnav
      have hmem := extract_mem_aux es hwf ps hex m (q' ++ [n])
      rw [List.cons_append]
      constructor
      · intro hin
        obtain ⟨sub', ps1, hlk', hed, hin1⟩ := hmem.mp hin
        rw [hlk] at hlk'
        obtain rfl := Option.some.inj hlk'
        by_cases hmh : m = "host"
        · exfalso
          unfold extractDir at hed
          rw [if_pos hmh] at hed
          by_cases hhe : (find_host_json_files es1).isEmpty = true
          · rw [if_pos hhe] at hed
            obtain rfl := Option.some.inj hed
            cases hin1
          · rw [if_neg hhe] at hed
            obtain rfl := Option.some.inj hed
            simp only [List.mem_singleton] at hin1
            exact List.append_ne_nil_of_right_ne_nil q' (by simp) hin1
        · unfold extractDir at hed
          rw [if_neg hmh] at hed
          have hsub1 : hasSubdir es1 = true := by
            cases hq : q' ++ [n] with
            | nil => exact absurd hq (List.append_ne_nil_of_right_ne_nil q' (by simp))
            | cons a rest2 =>
              rw [hq] at hnav
              simp only [navigate] at hnav
              rcases hlk2 : lookupKey (get_subfolders es1) a with _ | s2
              · rw [hlk2] at hnav; cases hnav
              · refine hasSubdir_of_subfolders es1 ?_
                cases hgs : get_subfolders es1 with
                | nil => rw [hgs] at hlk2; cases hlk2
                | cons x xs => simp [hgs]
          rw [if_pos hsub1] at hed
          obtain ⟨hhost, hslp⟩ := (ih es1 (wfEntries_lookup es m es1 hwf hlk) ps1
            hed n sub hnav hn hns).mp hin1
          refine ⟨?_, hslp⟩
          intro hc
          rcases List.mem_cons.mp hc with hc | hc
          · exact hmh hc.symm
          · exact hhost hc
      · rintro ⟨hhost, hslp⟩
        have hmh : m ≠ "host" := fun hc => hhost (hc ▸ List.mem_cons_self _ _)
        have hhost' : "host" ∉ q' := fun hc => hhost (List.mem_cons_of_mem _ hc)
        obtain ⟨ps1, hed⟩ := extract_sub_some es ps hex m es1 hlk
        have hed2 := hed
        unfold extractDir at hed2
        rw [if_neg hmh] at hed2
        have hsub1 : hasSubdir es1 = true := by
          cases hq : q' ++ [n] with
          | nil => exact absurd hq (List.append_ne_nil_of_right_ne_nil q' (by simp))
          | cons a rest2 =>
            rw [hq] at hnav
            simp only [navigate] at hnav
            rcases hlk2 : lookupKey (get_subfolders es1) a with _ | s2
            · rw [hlk2] at hnav; cases hnav
            · refine hasSubdir_of_subfolders es1 ?_
              cases hgs : get_subfolders es1 with
              | nil => rw [hgs] at hlk2; cases hlk2
              | cons x xs => simp [hgs]
        rw [if_pos hsub1] at hed2
        have hin1 := (ih es1 (wfEntries_lookup es m es1 hwf hlk) ps1
          hed2 n sub hnav hn hns).mpr ⟨hhost', hslp⟩
        exact hmem.mpr ⟨es1, ps1, hlk, hed, hin1⟩

/-- C8 counterexample: the root holds a single directory named `host` whose
subdirectory `inner` has no subdirectories, is not named `host`, and holds
exactly one silicon postprocess file with truthy parsed content — yet the
discovery returns no path at all, because traversal never descends into a
directory named `host`. -/
theorem claim_C8_counterexample :
    extractChildren [.dir "host" [.dir "inner" c8leaf]] = some [] ∧
    navigate [.dir "host" [.dir "inner" c8leaf]] ["host", "inner"] = some c8leaf ∧
    "inner" ≠ "host" ∧ hasSubdir c8leaf = false ∧
    siliconLeafPaths c8leaf = some [[]] ∧
    ["host", "inner"] ∉ ([] : List (List String)) := by
  refine ⟨?_, rfl, by decide, rfl, ?_, by simp⟩
  · simp [extractChildren, find_host_json_files, c8leaf, is_host_file]
  · simp only [siliconLeafPaths, c8leaf, c8content, siliconFiles,
      List.filterMap_cons, List.filterMap_nil]
    rw [show is_silicon_file "perf_postprocess.json" = true from rfl]
    simp only [if_true, string_mk_toList, json_loads_dumps]
    rfl

/-- C8 (amended): given a wellformed tree whose discovery succeeds, a
directory at path `q ++ [n]` that has no subdirectories and is not named
`host` is discovered as a leaf result path if and only if no ancestor
component in `q` is named `host` and it holds exactly one silicon postprocess
file whose parsed JSON content is truthy. -/
theorem claim_C8_silicon_leaf (es : List Entry) (ps : List (List String))
    (q : List String) (n : String) (sub : List Entry)
    (hwf : wfEntries es = true) (hex : extractChildren es = some ps)
    (hnav : navigate es (q ++ [n]) = some sub)
    (hn : n ≠ "host") (hns : hasSubdir sub = false) :
    ((q ++ [n]) ∈ ps ↔ ("host" ∉ q ∧
      ∃ f, siliconFiles sub = [f] ∧
        ∃ d, json_loads f.2.toList = some d ∧ d.truthy = true)) := by
  rw [extract_mem_nav q es hwf ps hex n sub hnav hn hns, siliconLeafPaths_one]

theorem claim_C8_witness :
    wfEntries c8es = true ∧ extractChildren c8es = some [["run"]] ∧
    navigate c8es ([] ++ ["run"]) = some c8leaf ∧ "run" ≠ "host" ∧
    hasSubdir c8leaf = false ∧
    (([] ++ ["run"]) ∈ [["run"]] ↔ ("host" ∉ ([] : List String) ∧
      ∃ f, siliconFiles c8leaf = [f] ∧
        ∃ d, json_loads f.2.toList = some d ∧ d.truthy = true)) := by
  have h1 : wfEntries c8es = true := by
    simp only [c8es, c8leaf, wfEntries, entryName]
    decide
  have h2 : extractChildren c8es = some [["run"]] := by
    simp only [c8es, extractChildren]
    rw [if_neg (show ¬("run" = "host") by decide),
      if_neg (show ¬(hasSubdir c8leaf = true) by rw [show hasSubdir c8leaf = false from rfl]; simp)]
    simp only [siliconLeafPaths, c8leaf, c8content, siliconFiles,
      List.filterMap_cons, List.filterMap_nil]
    rw [show is_silicon_file "perf_postprocess.json" = true from rfl]
    simp only [if_true, string_mk_toList, json_loads_dumps]
    rfl
  exact ⟨h1, h2, rfl, by decide, rfl,
    claim_C8_silicon_leaf c8es [["run"]] [] "run" c8leaf h1 h2 rfl (by decide) rfl⟩

end GuiServer
